import Mathlib

/-!
Verification of the AVL tree implementation in `zahlen/ds/tree/avl.py`.

The program mutates a pointer-linked tree in place, so the primary embedding
is an explicit heap: nodes are records addressed by natural-number ids, and
every attribute read or write of the Python code becomes a read or write of
the heap.  The `bst` module (the plain binary-search-tree collaborator) is
not part of the source tree; its node fields, child setters, `add_child`,
insert and delete are modelled from the specification and are marked as such
in their doc comments.  Two ghost fields instrument the state: `rots`
records every rotation performed (kind and key of the rotated node), and
`stale` records whether some `_balance` call inspected a child whose stored
height was not current at that moment.  Neither ghost field is read by the
algorithm itself.
-/
/-- A tree node: the fields of `bst.Node` (`key`, `count`, `weight`,
`left`, `right`, `parent` — modelled from the spec, since `bst` is not in
the source tree) together with the `_height` field added by `avl.Node`. -/
structure NodeRec where
  key : Int
  count : Int
  weight : Int
  height : Int
  left : Option Nat
  right : Option Nat
  parent : Option Nat
  deriving Repr, DecidableEq

instance : Inhabited NodeRec :=
  ⟨{ key := 0, count := 0, weight := 0, height := 0,
     left := none, right := none, parent := none }⟩

/-- The mutable state of an `AVLTree`: a heap of allocated nodes, the
`root` pointer, an allocation counter, and two ghost fields (`rots`: the
rotations performed so far, as pairs (isLeftRotation, key of the demoted
node); `stale`: set when a `_balance` height inspection read a child whose
stored height was not current). -/
structure St where
  heap : Nat → Option NodeRec
  root : Option Nat
  next : Nat
  rots : List (Bool × Int)
  stale : Bool

def empty_st : St :=
  { heap := fun _ => none, root := none, next := 0, rots := [], stale := false }

/-- Write one heap cell. -/
def hwrite (h : Nat → Option NodeRec) (i : Nat) (r : NodeRec) :
    Nat → Option NodeRec :=
  fun j => if j = i then some r else h j

/-- Read a node that the Python code holds a (non-None) reference to.
References in the program always point at allocated nodes, so the default
branch is dead. -/
def getRec (st : St) (i : Nat) : NodeRec :=
  (st.heap i).getD default

/-- Apply `f` to the record stored at `i` (a plain attribute write). -/
def modifyRec (st : St) (i : Nat) (f : NodeRec → NodeRec) : St :=
  match st.heap i with
  | some r => { st with heap := hwrite st.heap i (f r) }
  | none => st

/-- Modelled from the spec: the `bst.Node` left-child setter; setting a
child also sets that child's parent back-link. -/
def set_left (st : St) (n : Nat) (c : Option Nat) : St :=
  let st1 := modifyRec st n (fun r => { r with left := c })
  match c with
  | some cid => modifyRec st1 cid (fun r => { r with parent := some n })
  | none => st1

/-- Modelled from the spec: the `bst.Node` right-child setter; setting a
child also sets that child's parent back-link. -/
def set_right (st : St) (n : Nat) (c : Option Nat) : St :=
  let st1 := modifyRec st n (fun r => { r with right := c })
  match c with
  | some cid => modifyRec st1 cid (fun r => { r with parent := some n })
  | none => st1

/-- A raw write of the `parent` attribute (as in `heavy_child.parent = parent`). -/
def write_parent (st : St) (n : Nat) (p : Option Nat) : St :=
  modifyRec st n (fun r => { r with parent := p })

/-- Modelled from the spec: `bst.Node.add_child(x)` attaches `x` as the left
or right child of `self` depending on which side its key compares to. -/
def add_child (st : St) (p x : Nat) : St :=
  if (getRec st x).key < (getRec st p).key then
    set_left st p (some x)
  else
    set_right st p (some x)

/-- Allocate a fresh node, as `AVLTree.create_node`: a `bst.Node` (count 1,
weight 1, no links — modelled from the spec) carrying the `_height = 0`
field added by `avl.Node.__init__`. -/
def alloc (st : St) (k : Int) : St × Nat :=
  let nid := st.next
  ({ st with
      heap := hwrite st.heap nid
        { key := k, count := 1, weight := 1, height := 0,
          left := none, right := none, parent := none },
      next := nid + 1 }, nid)

/-- Python `avl.Node.left_height`: the stored height of the left child, `-1` if absent. -/
def left_height (st : St) (n : Nat) : Int :=
  match (getRec st n).left with
  | some l => (getRec st l).height
  | none => -1

/-- Python `avl.Node.right_height`: the stored height of the right child, `-1` if absent. -/
def right_height (st : St) (n : Nat) : Int :=
  match (getRec st n).right with
  | some r => (getRec st r).height
  | none => -1

/-- Python `avl.Node.is_heavy`: `abs(left_height - right_height) > 1`. -/
def is_heavy (st : St) (n : Nat) : Bool :=
  (left_height st n - right_height st n).natAbs > 1

/-- Python `avl.Node.is_left_heavy(diff)`: `left_height - right_height > diff`. -/
def is_left_heavy (st : St) (n : Nat) (diff : Int) : Bool :=
  left_height st n - right_height st n > diff

/-- Python `avl.Node.is_right_heavy(diff)`: `right_height - left_height > diff`. -/
def is_right_heavy (st : St) (n : Nat) (diff : Int) : Bool :=
  right_height st n - left_height st n > diff

/-- Modelled from the spec: `bst.Node.left_weight`, the stored weight of
the left child, `0` if absent. -/
def left_weight (st : St) (n : Nat) : Int :=
  match (getRec st n).left with
  | some l => (getRec st l).weight
  | none => 0

/-- Modelled from the spec: `bst.Node.right_weight`. -/
def right_weight (st : St) (n : Nat) : Int :=
  match (getRec st n).right with
  | some r => (getRec st r).weight
  | none => 0

/-- Python `avl.Node.update`: recompute the stored weight and height of `n` from
the current stored values of its children. -/
def update (st : St) (n : Nat) : St :=
  let w := (getRec st n).count + left_weight st n + right_weight st n
  let h := 1 + max (left_height st n) (right_height st n)
  modifyRec st n (fun r => { r with weight := w, height := h })

/-- Ghost: record a rotation event (`isLeft`, key of the demoted node). -/
def log_rot (st : St) (isLeft : Bool) (k : Int) : St :=
  { st with rots := st.rots ++ [(isLeft, k)] }

/-- A node is locally current when its stored height agrees with its
children's stored heights. -/
def locally_current (st : St) (n : Nat) : Bool :=
  (getRec st n).height = 1 + max (left_height st n) (right_height st n)

/-- Ghost: `_balance` is about to inspect the stored heights of `n`'s
children; raise the `stale` flag if one of them is not locally current. -/
def inspect (st : St) (n : Nat) : St :=
  let bad (c : Option Nat) : Bool :=
    match c with
    | some x => !(locally_current st x)
    | none => false
  { st with stale := st.stale || bad (getRec st n).left || bad (getRec st n).right }

/-- Python `AVLTree._rotate_left(node, heavy_child)`.  The `heavy_child` argument
is an optional reference: passing `None` crashes at the `heavy_child.left`
dereference, which the model reports as `none`. -/
def _rotate_left (st : St) (node : Nat) (heavy_child : Option Nat) : Option St :=
  match heavy_child with
  | none => none
  | some hc =>
    let st := log_rot st true (getRec st node).key
    let parent := (getRec st node).parent
    let st := set_right st node (getRec st hc).left
    let st := update st node
    let st := write_parent st hc parent
    let st := set_left st hc (some node)
    let st := update st hc
    match parent with
    | some p => some (add_child st p hc)
    | none => some { st with root := some hc }

/-- Python `AVLTree._rotate_right(node, heavy_child)`: the mirror image. -/
def _rotate_right (st : St) (node : Nat) (heavy_child : Option Nat) : Option St :=
  match heavy_child with
  | none => none
  | some hc =>
    let st := log_rot st false (getRec st node).key
    let parent := (getRec st node).parent
    let st := set_left st node (getRec st hc).right
    let st := update st node
    let st := write_parent st hc parent
    let st := set_right st hc (some node)
    let st := update st hc
    match parent with
    | some p => some (add_child st p hc)
    | none => some { st with root := some hc }

/-- The rotation dispatch of `AVLTree._balance` (everything before the
recursive call on the parent).  `none` models an `AttributeError` on a
`None` dereference (`node.left.is_right_heavy` with `node.left` absent, or
a rotation invoked with an absent heavy child). -/
def _balance_step (st : St) (node : Nat) : Option St :=
  let st := inspect st node
  if is_left_heavy st node 1 then
    match (getRec st node).left with
    | none => none
    | some l =>
      let st := inspect st l
      (if is_right_heavy st l 0 then
          _rotate_left st l (getRec st l).right
        else some st).bind
        fun st2 => _rotate_right st2 node (getRec st2 node).left
  else if is_right_heavy st node 1 then
    match (getRec st node).right with
    | none => none
    | some r =>
      let st := inspect st r
      (if is_left_heavy st r 0 then
          _rotate_right st r (getRec st r).left
        else some st).bind
        fun st2 => _rotate_left st2 node (getRec st2 node).right
  else some st

/-- Python `AVLTree._balance`: the dispatch, then recursion on the node's original
parent, captured before any rotation moved pointers.  Recursion on the
parent chain is bounded by fuel. -/
def _balance : Nat → St → Nat → Option St
  | 0, _, _ => none
  | fuel + 1, st, node =>
    let parent := (getRec st node).parent
    match _balance_step st node with
    | none => none
    | some st1 =>
      match parent with
      | some p => _balance fuel st1 p
      | none => some st1

/-- Python `AVLTree._update`: walk from `node` to the root; at each step refresh
the node's height/weight, re-balance, and move to the (possibly new)
parent. -/
def _update : Nat → St → Nat → Option St
  | 0, _, _ => none
  | fuel + 1, st, node =>
    let st := update st node
    match _balance (fuel + 1) st node with
    | none => none
    | some st1 =>
      match (getRec st1 node).parent with
      | some p => _update fuel st1 p
      | none => some st1

/-- Modelled from the spec: the descent of `bst.BinarySearchTree.insert`.
A smaller key goes left, a larger key goes right, an equal key bumps the
node's `count`; the structural edit is followed by the update-and-rebalance
walk starting at the edit point. -/
def insert_at : Nat → St → Nat → Int → Option St
  | 0, _, _, _ => none
  | fuel + 1, st, cur, k =>
    let r := getRec st cur
    if k < r.key then
      match r.left with
      | some l => insert_at fuel st l k
      | none =>
        let (st1, nid) := alloc st k
        let st2 := set_left st1 cur (some nid)
        _update (fuel + 1) st2 nid
    else if r.key < k then
      match r.right with
      | some rr => insert_at fuel st rr k
      | none =>
        let (st1, nid) := alloc st k
        let st2 := set_right st1 cur (some nid)
        _update (fuel + 1) st2 nid
    else
      let st1 := modifyRec st cur (fun rr => { rr with count := rr.count + 1 })
      _update (fuel + 1) st1 cur

/-- Modelled from the spec: `insert(key)` — descend from the root (a new
root when the tree is empty), then run the walk. -/
def insert (fuel : Nat) (st : St) (k : Int) : Option St :=
  match st.root with
  | none =>
    let (st1, nid) := alloc st k
    let st2 := { st1 with root := some nid }
    _update fuel st2 nid
  | some rt => insert_at fuel st rt k

/-- Modelled from the spec: the search descent. -/
def find_node : Nat → St → Nat → Int → Option Nat
  | 0, _, _, _ => none
  | fuel + 1, st, cur, k =>
    let r := getRec st cur
    if k < r.key then
      match r.left with
      | some l => find_node fuel st l k
      | none => none
    else if r.key < k then
      match r.right with
      | some rr => find_node fuel st rr k
      | none => none
    else some cur

/-- Modelled from the spec: leftmost node of a subtree (the successor
search used by delete). -/
def min_from : Nat → St → Nat → Option Nat
  | 0, _, _ => none
  | fuel + 1, st, cur =>
    match (getRec st cur).left with
    | some l => min_from fuel st l
    | none => some cur

/-- Modelled from the spec: replace `v` in its parent's slot (or at the
root) by `child`. -/
def replace_in_parent (st : St) (v : Nat) (child : Option Nat) : St :=
  match (getRec st v).parent with
  | some p =>
    if (getRec st p).left = some v then set_left st p child
    else set_right st p child
  | none =>
    let st1 := { st with root := child }
    match child with
    | some c => modifyRec st1 c (fun r => { r with parent := none })
    | none => st1

/-- Modelled from the spec: `delete(key)` — splice out the node holding the
key (successor splice in the two-children case), then run the
update-and-rebalance walk from the parent of the removed/spliced node. -/
def delete (fuel : Nat) (st : St) (k : Int) : Option St := do
  let rt ← st.root
  let v ← find_node fuel st rt k
  let r := getRec st v
  if 1 < r.count then
    _update fuel (modifyRec st v (fun rr => { rr with count := rr.count - 1 })) v
  else
    match r.left, r.right with
    | some _, some rr => do
      let s ← min_from fuel st rr
      let sr := getRec st s
      let st1 := modifyRec st v (fun vv => { vv with key := sr.key, count := sr.count })
      let sp := (getRec st1 s).parent
      let st2 := replace_in_parent st1 s sr.right
      match sp with
      | some p => _update fuel st2 p
      | none => some st2
    | _, _ =>
      let child := match r.left with
        | some l => some l
        | none => r.right
      let p := r.parent
      let st1 := replace_in_parent st v child
      match p with
      | some q => _update fuel st1 q
      | none => some st1

/-- Python `AVLTree.is_balanced(node=None)`: the default argument falls back to
the root, and the subsequent `node.is_heavy()` dereference crashes
(`none`) when that node is absent. -/
def is_balanced : Nat → St → Option Nat → Option Bool
  | 0, _, _ => none
  | fuel + 1, st, nodeArg =>
    let nodeRef : Option Nat :=
      match nodeArg with
      | none => st.root
      | some n => some n
    match nodeRef with
    | none => none
    | some node =>
      let b := !(is_heavy st node)
      let goLeft : Option Bool :=
        if b then
          match (getRec st node).left with
          | some l => is_balanced fuel st (some l)
          | none => some b
        else some b
      goLeft.bind fun b1 =>
        if b1 then
          match (getRec st node).right with
          | some r => is_balanced fuel st (some r)
          | none => some b1
        else some b1

/-- Checker walk: every node in the subtree has a stored height equal to
one plus the maximum of its children's stored heights. -/
def heights_ok : Nat → St → Option Nat → Bool
  | 0, _, _ => false
  | _ + 1, _, none => true
  | fuel + 1, st, some n =>
    locally_current st n
      && heights_ok fuel st (getRec st n).left
      && heights_ok fuel st (getRec st n).right

/-- Checker walk: stored heights and weights are both exact everywhere in
the subtree. -/
def bookkeeping_ok : Nat → St → Option Nat → Bool
  | 0, _, _ => false
  | _ + 1, _, none => true
  | fuel + 1, st, some n =>
    locally_current st n
      && ((getRec st n).weight
            = (getRec st n).count + left_weight st n + right_weight st n)
      && bookkeeping_ok fuel st (getRec st n).left
      && bookkeeping_ok fuel st (getRec st n).right

/-- Checker walk: every node of the subtree satisfies the AVL balance
condition on true (recomputed) heights is not needed for this checker; it
checks `is_heavy` on stored fields at every reachable node. -/
def balanced_all : Nat → St → Option Nat → Bool
  | 0, _, _ => false
  | _ + 1, _, none => true
  | fuel + 1, st, some n =>
    !(is_heavy st n)
      && balanced_all fuel st (getRec st n).left
      && balanced_all fuel st (getRec st n).right

/-- In-order key sequence of a heap subtree (checker walk). -/
def inorder_heap : Nat → St → Option Nat → List Int
  | 0, _, _ => []
  | _ + 1, _, none => []
  | fuel + 1, st, some n =>
    inorder_heap fuel st (getRec st n).left
      ++ (getRec st n).key :: inorder_heap fuel st (getRec st n).right

/-- Run a list of insertions from the empty tree. -/
def run_inserts (ks : List Int) : Option St :=
  ks.foldlM (fun st k => insert 100 st k) empty_st

/-!
A value-level rendering of the same balancing code, used for claims about
key preservation.  A pointer tree is viewed through reachability from a
node: `FTree` is that view, a `Crumb` is the view of a parent minus the
focused child slot, and a context (innermost crumb first) plays the role
of the `parent` chain.  Every function below renders the corresponding
Python function on this view.  `add_child` overwrites the chosen child
slot, so its view is computed from the attached subtree and the untouched
slot alone; when the key comparison picks the slot the subtree came from
(always, for BST-ordered trees) this view is exact.
-/
inductive FTree where
  | leaf
  | node (key count height weight : Int) (l r : FTree)
  deriving Repr, DecidableEq

/-- Stored height of an optional node (`-1` for an absent child). -/
def fheight : FTree → Int
  | .leaf => -1
  | .node _ _ h _ _ _ => h

/-- Stored weight of an optional node (`0` for an absent child). -/
def fweight : FTree → Int
  | .leaf => 0
  | .node _ _ _ w _ _ => w

/-- Python `avl.Node.update` on the view: recompute the root's weight and height
from the children's stored values. -/
def fupdate : FTree → FTree
  | .leaf => .leaf
  | .node k c _ _ l r => .node k c (1 + max (fheight l) (fheight r)) (c + fweight l + fweight r) l r

/-- Python `avl.Node.is_left_heavy(diff)` on the view. -/
def fis_left_heavy (t : FTree) (d : Int) : Bool :=
  match t with
  | .leaf => false
  | .node _ _ _ _ l r => fheight l - fheight r > d

/-- Python `avl.Node.is_right_heavy(diff)` on the view. -/
def fis_right_heavy (t : FTree) (d : Int) : Bool :=
  match t with
  | .leaf => false
  | .node _ _ _ _ l r => fheight r - fheight l > d

/-- Python `AVLTree._rotate_left(node, node.right)` on the view (both call sites
pass the right child as the heavy child): `node.right = heavy_child.left`,
`node.update()`, `heavy_child.left = node`, `heavy_child.update()`; the
caller reattaches the result.  `none` is the crash on an absent heavy
child. -/
def frotate_left : FTree → Option FTree
  | .node k c h w l (.node rk rc rh rw rl rr) =>
    some (fupdate (.node rk rc rh rw (fupdate (.node k c h w l rl)) rr))
  | _ => none

/-- Python `AVLTree._rotate_right(node, node.left)` on the view: the mirror image. -/
def frotate_right : FTree → Option FTree
  | .node k c h w (.node lk lc lh lw ll lr) r =>
    some (fupdate (.node lk lc lh lw ll (fupdate (.node k c h w lr r))))
  | _ => none

/-- Modelled from the spec: `bst.Node.add_child(x)` on the view — overwrite
the child slot chosen by key comparison with `x`. -/
def fadd_child (p x : FTree) : FTree :=
  match p, x with
  | .node k c h w l r, .node xk _ _ _ _ _ =>
    if xk < k then .node k c h w x r else .node k c h w l x
  | _, _ => p

/-- The rotation dispatch of `AVLTree._balance` on the view.  Returns the
new view of the focused slot and whether a rotation re-attached it (in the
pointer code, via `add_child` on the parent).  `none` is the crash on the
`node.left`/`node.right` dereference with an absent child. -/
def fbalance_step : FTree → Option (FTree × Bool)
  | .leaf => some (.leaf, false)
  | t@(.node _ _ _ _ l r) =>
    if fis_left_heavy t 1 then
      match l with
      | .leaf => none
      | .node _ _ _ _ _ _ =>
        (if fis_right_heavy l 0 then (frotate_left l).map (fadd_child t) else some t).bind
          fun t1 => (frotate_right t1).map fun t2 => (t2, true)
    else if fis_right_heavy t 1 then
      match r with
      | .leaf => none
      | .node _ _ _ _ _ _ =>
        (if fis_left_heavy r 0 then (frotate_right r).map (fadd_child t) else some t).bind
          fun t1 => (frotate_left t1).map fun t2 => (t2, true)
    else some (t, false)

/-- The view of a parent node minus one child slot: key, count, stored
height and weight of the parent, and the sibling subtree. -/
inductive Crumb where
  | cleft (key count height weight : Int) (sib : FTree)
  | cright (key count height weight : Int) (sib : FTree)
  deriving Repr, DecidableEq

/-- Put a subtree back into the slot a crumb describes. -/
def plug_side (c : Crumb) (t : FTree) : FTree :=
  match c with
  | .cleft k cc h w sib => .node k cc h w t sib
  | .cright k cc h w sib => .node k cc h w sib t

/-- Rebuild the whole tree from a focus and its context (innermost crumb
first). -/
def plug_all (t : FTree) : List Crumb → FTree
  | [] => t
  | c :: ctx => plug_all (plug_side c t) ctx

/-- Python `AVLTree._balance` on the view: the dispatch at the focus, then
recursion on the original parent.  When a rotation re-attached the focused
slot, the parent's view is `add_child`'s (slot chosen by key comparison);
otherwise the slot is unchanged. -/
def fbalance_walk : FTree → List Crumb → Option FTree
  | t, [] => (fbalance_step t).map Prod.fst
  | t, c :: ctx =>
    (fbalance_step t).bind fun tr =>
      let p := if tr.2 then fadd_child (plug_side c tr.1) tr.1 else plug_side c tr.1
      fbalance_walk p ctx

/-- In-order (key, count) sequence of a view. -/
def inorder_pairs : FTree → List (Int × Int)
  | .leaf => []
  | .node k c _ _ l r => inorder_pairs l ++ (k, c) :: inorder_pairs r

/-- In-order key sequence of a view. -/
def inorder_keys (t : FTree) : List Int :=
  (inorder_pairs t).map Prod.fst

/-!  Observations used by the concrete-scenario theorems. -/
/-- Shape observation of a tree: keys of the root and its children, stored
heights of the root and its child slots, and the ghost rotation log. -/
def shape_obs (st : St) :
    Option Int × Option Int × Option Int × Int × Int × Int × List (Bool × Int) :=
  match st.root with
  | none => (none, none, none, 0, 0, 0, st.rots)
  | some rt =>
    ((getRec st rt).left.map fun l => (getRec st l).key,
     some (getRec st rt).key,
     (getRec st rt).right.map fun r => (getRec st r).key,
     (getRec st rt).height, left_height st rt, right_height st rt, st.rots)

def c5_ex_t : FTree :=
  .node 30 1 2 3 (.node 10 1 1 2 .leaf (.node 20 1 0 1 .leaf .leaf)) .leaf

def c5_ex_res : FTree :=
  .node 20 1 1 3 (.node 10 1 0 1 .leaf .leaf) (.node 30 1 0 1 .leaf .leaf)

/-- Stored height an optional child contributes (`-1` if absent). -/
def child_h (st : St) (c : Option Nat) : Int :=
  match c with
  | some x => (getRec st x).height
  | none => -1

/-- Stored weight an optional child contributes (`0` if absent). -/
def child_w (st : St) (c : Option Nat) : Int :=
  match c with
  | some x => (getRec st x).weight
  | none => 0

/-- A concrete five-node heap: parent 0 (key 50), node 1 (key 20) with
right-heavy child 2 (key 30), whose children are 3 (key 25, the child that
moves across in a left rotation) and 4 (key 35). -/
def rot_ex : St :=
  { heap :=
      hwrite (hwrite (hwrite (hwrite (hwrite (fun _ => none)
        0 { key := 50, count := 1, weight := 5, height := 3,
            left := some 1, right := none, parent := none })
        1 { key := 20, count := 1, weight := 4, height := 2,
            left := none, right := some 2, parent := some 0 })
        2 { key := 30, count := 1, weight := 3, height := 1,
            left := some 3, right := some 4, parent := some 1 })
        3 { key := 25, count := 1, weight := 1, height := 0,
            left := none, right := none, parent := some 2 })
        4 { key := 35, count := 1, weight := 1, height := 0,
            left := none, right := none, parent := some 2 },
    root := some 0, next := 5, rots := [], stale := false }

def rot_ex_n : NodeRec :=
  { key := 20, count := 1, weight := 4, height := 2,
    left := none, right := some 2, parent := some 0 }

def rot_ex_hc : NodeRec :=
  { key := 30, count := 1, weight := 3, height := 1,
    left := some 3, right := some 4, parent := some 1 }

/-- A concrete heap with exact stored heights: a left-leaning path
10 → 5 → 3, so the root is left-heavy. -/
def c9_ex : St :=
  { heap := hwrite (hwrite (hwrite (fun _ => none)
      0 { key := 10, count := 1, weight := 3, height := 2,
          left := some 1, right := none, parent := none })
      1 { key := 5, count := 1, weight := 2, height := 1,
          left := some 2, right := none, parent := some 0 })
      2 { key := 3, count := 1, weight := 1, height := 0,
          left := none, right := none, parent := some 1 },
    root := some 0, next := 3, rots := [], stale := false }

/-- C10: calling `is_balanced()` with no argument on an empty tree does not
return a boolean: the default-argument fallback assigns the absent root to
`node` and the `node.is_heavy()` dereference then fails, so the call fails
(modelled as `none`) instead of reporting the empty tree as balanced. -/
theorem C10_empty_is_balanced_fails : is_balanced 100 empty_st none = none := rfl

/-- C6 counterexample: inserting `[30, 10, 20]` does not trigger a
right-left double rotation.  The ghost rotation log of the run shows a
left rotation followed by a right rotation (`[true, false]`), not a right
rotation followed by a left one (`[false, true]`). -/
theorem C6_cex :
    (run_inserts [30, 10, 20]).map (fun st => st.rots.map Prod.fst)
      = some [true, false]
    ∧ ([true, false] : List Bool) ≠ [false, true] := by
  exact ⟨rfl, by decide⟩

/-- C6 (amended): inserting `[10, 20, 30]` triggers exactly one left
rotation, at the node holding 10, and yields root 20 with children 10 and
30, root height 1 and both child slots at height 0; inserting
`[30, 10, 20]` triggers a left-right double rotation (a left rotation at
the node holding 10 followed by a right rotation at the node holding 30)
and yields the identical shape. -/
theorem C6_amended :
    (run_inserts [10, 20, 30]).map shape_obs
      = some (some 10, some 20, some 30, 1, 0, 0, [(true, 10)])
    ∧ (run_inserts [30, 10, 20]).map shape_obs
      = some (some 10, some 20, some 30, 1, 0, 0, [(true, 10), (false, 30)]) :=
  ⟨rfl, rfl⟩

/-- C7 counterexample: during the `_update` walk of inserting `[10, 20, 30]`
some `_balance` invocation inspects the stored height of a node that is not
current at that moment (the ghost `stale` flag is raised): when the
recursion of `_balance(20)` reaches the root 10, it reads the stored height
of node 20, which `_update` has not yet refreshed. -/
theorem C7_cex : (run_inserts [10, 20, 30]).map St.stale = some true := rfl

/-!  Heap toolkit lemmas shared by the theorems below. -/
theorem hwrite_self (h : Nat → Option NodeRec) (i : Nat) (r : NodeRec) :
    hwrite h i r i = some r := by
  simp [hwrite]

theorem hwrite_other (h : Nat → Option NodeRec) (i : Nat) (r : NodeRec)
    (j : Nat) (hne : j ≠ i) : hwrite h i r j = h j := by
  simp [hwrite, hne]

theorem heap_modifyRec_same (st : St) (n : Nat) (f : NodeRec → NodeRec)
    (r : NodeRec) (hst : st.heap n = some r) :
    (modifyRec st n f).heap n = some (f r) := by
  simp [modifyRec, hst, hwrite_self]

theorem heap_modifyRec_other (st : St) (n : Nat) (f : NodeRec → NodeRec)
    (m : Nat) (hne : m ≠ n) : (modifyRec st n f).heap m = st.heap m := by
  unfold modifyRec
  cases hst : st.heap n with
  | none => rfl
  | some r => simp [hwrite_other _ _ _ _ hne]

theorem getRec_modifyRec_same (st : St) (n : Nat) (f : NodeRec → NodeRec)
    (r : NodeRec) (hst : st.heap n = some r) :
    getRec (modifyRec st n f) n = f r := by
  simp [getRec, heap_modifyRec_same st n f r hst]

theorem getRec_modifyRec_other (st : St) (n : Nat) (f : NodeRec → NodeRec)
    (m : Nat) (hne : m ≠ n) : getRec (modifyRec st n f) m = getRec st m := by
  simp [getRec, heap_modifyRec_other st n f m hne]

theorem root_modifyRec (st : St) (n : Nat) (f : NodeRec → NodeRec) :
    (modifyRec st n f).root = st.root := by
  unfold modifyRec
  cases st.heap n <;> rfl

/-- C7 (amended): the `_update` loop body refreshes a node before invoking
`_balance` on it, so the node `_update` directly hands to `_balance` has a
current stored height at that moment (for any node whose children are not
the node itself); the nodes `_balance` inspects through its own recursion
to ancestors may still be stale (see the counterexample). -/
theorem C7_amended :
    (∀ (fuel : Nat) (st : St) (n : Nat),
      _update (fuel + 1) st n
        = match _balance (fuel + 1) (update st n) n with
          | none => none
          | some st1 =>
            match (getRec st1 n).parent with
            | some p => _update fuel st1 p
            | none => some st1)
    ∧ (∀ (st : St) (n : Nat) (r : NodeRec), st.heap n = some r →
        r.left ≠ some n → r.right ≠ some n →
        locally_current (update st n) n = true) := by
  constructor
  · intro fuel st n
    rfl
  · intro st n r hst hl hr
    have hsame : getRec (update st n) n
        = { r with
            weight := (getRec st n).count + left_weight st n + right_weight st n,
            height := 1 + max (left_height st n) (right_height st n) } := by
      simp [update, getRec_modifyRec_same st n _ r hst]
    have hlh : left_height (update st n) n = left_height st n := by
      rw [left_height, hsame]
      show (match r.left with
            | some l => (getRec (update st n) l).height
            | none => -1) = left_height st n
      cases hrl : r.left with
      | none => simp [left_height, getRec, hst, hrl]
      | some l =>
        have hne : l ≠ n := fun h => hl (by rw [hrl, h])
        show (getRec (update st n) l).height = left_height st n
        simp only [update]
        rw [getRec_modifyRec_other st n _ l hne]
        simp [left_height, getRec, hst, hrl]
    have hrh : right_height (update st n) n = right_height st n := by
      rw [right_height, hsame]
      show (match r.right with
            | some rr => (getRec (update st n) rr).height
            | none => -1) = right_height st n
      cases hrr : r.right with
      | none => simp [right_height, getRec, hst, hrr]
      | some rr =>
        have hne : rr ≠ n := fun h => hr (by rw [hrr, h])
        show (getRec (update st n) rr).height = right_height st n
        simp only [update]
        rw [getRec_modifyRec_other st n _ rr hne]
        simp [right_height, getRec, hst, hrr]
    rw [locally_current, hsame, hlh, hrh]
    simp

/-- Witness for C7 (amended) at a concrete one-node tree. -/
theorem C7_witness :
    locally_current (update (alloc empty_st 5).1 0) 0 = true :=
  C7_amended.2 (alloc empty_st 5).1 0
    { key := 5, count := 1, weight := 1, height := 0,
      left := none, right := none, parent := none }
    rfl (by decide) (by decide)

/-!  Key preservation of the balance walk (claim C5). -/
theorem inorder_fupdate (t : FTree) : inorder_pairs (fupdate t) = inorder_pairs t := by
  cases t <;> rfl

theorem inorder_frotate_left (t t' : FTree) (h : frotate_left t = some t') :
    inorder_pairs t' = inorder_pairs t := by
  cases t with
  | leaf => simp [frotate_left] at h
  | node k c hh w l r =>
    cases r with
    | leaf => simp [frotate_left] at h
    | node rk rc rh rw rl rr =>
      simp only [frotate_left, Option.some.injEq] at h
      subst h
      simp [inorder_fupdate, inorder_pairs, List.append_assoc]

theorem inorder_frotate_right (t t' : FTree) (h : frotate_right t = some t') :
    inorder_pairs t' = inorder_pairs t := by
  cases t with
  | leaf => simp [frotate_right] at h
  | node k c hh w l r =>
    cases l with
    | leaf => simp [frotate_right] at h
    | node lk lc lh lw ll lr =>
      simp only [frotate_right, Option.some.injEq] at h
      subst h
      simp [inorder_fupdate, inorder_pairs, List.append_assoc]

theorem keys_node (k c h w : Int) (l r : FTree) :
    inorder_keys (.node k c h w l r) = inorder_keys l ++ k :: inorder_keys r := by
  simp [inorder_keys, inorder_pairs]

theorem root_key_mem (k c h w : Int) (l r : FTree) :
    k ∈ inorder_keys (.node k c h w l r) := by
  simp [keys_node]

/-- All keys of the left part of a sorted node are below the node key. -/
theorem sorted_left_bound (k c h w : Int) (l r : FTree)
    (hs : List.Pairwise (· < ·) (inorder_keys (.node k c h w l r))) :
    ∀ x ∈ inorder_keys l, x < k := by
  rw [keys_node, List.pairwise_append] at hs
  intro x hx
  exact hs.2.2 x hx k (by simp)

/-- The node key of a sorted node is below all keys of the right part. -/
theorem sorted_right_bound (k c h w : Int) (l r : FTree)
    (hs : List.Pairwise (· < ·) (inorder_keys (.node k c h w l r))) :
    ∀ x ∈ inorder_keys r, k < x := by
  rw [keys_node, List.pairwise_append] at hs
  intro x hx
  exact (List.pairwise_cons.mp hs.2.1).1 x hx

/-- The rotation dispatch preserves the in-order sequence of a sorted
subtree. -/
theorem inorder_fbalance_step (t t' : FTree) (rot : Bool)
    (hs : List.Pairwise (· < ·) (inorder_keys t))
    (h : fbalance_step t = some (t', rot)) :
    inorder_pairs t' = inorder_pairs t := by
  cases t with
  | leaf =>
    simp only [fbalance_step, Option.some.injEq, Prod.mk.injEq] at h
    rw [← h.1]
  | node k c hh w l r =>
    simp only [fbalance_step] at h
    by_cases hlh : fis_left_heavy (.node k c hh w l r) 1
    · rw [if_pos hlh] at h
      cases l with
      | leaf => simp at h
      | node lk lc lh2 lw ll lr =>
        by_cases hrh : fis_right_heavy (.node lk lc lh2 lw ll lr) 0
        · rw [if_pos hrh] at h
          cases hrot : frotate_left (.node lk lc lh2 lw ll lr) with
          | none => rw [hrot] at h; simp at h
          | some l2 =>
            rw [hrot] at h
            simp only [Option.map_some', Option.some_bind] at h
            have hl2 : inorder_pairs l2 = inorder_pairs (.node lk lc lh2 lw ll lr) :=
              inorder_frotate_left _ _ hrot
            cases l2 with
            | leaf =>
              exfalso
              cases lr with
              | leaf => simp [frotate_left] at hrot
              | node a b c2 d e f => simp [frotate_left, fupdate] at hrot
            | node mk mc mh mw ml mr =>
              have hmk : mk < k := by
                apply sorted_left_bound k c hh w (.node lk lc lh2 lw ll lr) r hs
                have : mk ∈ inorder_keys (FTree.node mk mc mh mw ml mr) := root_key_mem _ _ _ _ _ _
                rw [inorder_keys, hl2] at this
                exact this
              simp only [fadd_child, if_pos hmk] at h
              cases hrot2 : frotate_right (.node k c hh w (.node mk mc mh mw ml mr) r) with
              | none => rw [hrot2] at h; simp at h
              | some t2 =>
                rw [hrot2] at h
                simp only [Option.map_some', Option.some.injEq, Prod.mk.injEq] at h
                rw [← h.1]
                rw [inorder_frotate_right _ _ hrot2]
                show inorder_pairs (FTree.node mk mc mh mw ml mr) ++ (k, c) :: inorder_pairs r
                  = inorder_pairs (FTree.node lk lc lh2 lw ll lr) ++ (k, c) :: inorder_pairs r
                rw [hl2]
        · rw [if_neg hrh] at h
          simp only [Option.some_bind] at h
          cases hrot2 : frotate_right (.node k c hh w (.node lk lc lh2 lw ll lr) r) with
          | none => rw [hrot2] at h; simp at h
          | some t2 =>
            rw [hrot2] at h
            simp only [Option.map_some', Option.some.injEq, Prod.mk.injEq] at h
            rw [← h.1]
            exact inorder_frotate_right _ _ hrot2
    · rw [if_neg hlh] at h
      by_cases hrh : fis_right_heavy (.node k c hh w l r) 1
      · rw [if_pos hrh] at h
        cases r with
        | leaf => simp at h
        | node rk rc rh2 rw2 rl rr =>
          by_cases hlh2 : fis_left_heavy (.node rk rc rh2 rw2 rl rr) 0
          · rw [if_pos hlh2] at h
            cases hrot : frotate_right (.node rk rc rh2 rw2 rl rr) with
            | none => rw [hrot] at h; simp at h
            | some r2 =>
              rw [hrot] at h
              simp only [Option.map_some', Option.some_bind] at h
              have hr2 : inorder_pairs r2 = inorder_pairs (.node rk rc rh2 rw2 rl rr) :=
                inorder_frotate_right _ _ hrot
              cases r2 with
              | leaf =>
                exfalso
                cases rl with
                | leaf => simp [frotate_right] at hrot
                | node a b c2 d e f => simp [frotate_right, fupdate] at hrot
              | node mk mc mh mw ml mr =>
                have hmk : k < mk := by
                  apply sorted_right_bound k c hh w l (.node rk rc rh2 rw2 rl rr) hs
                  have : mk ∈ inorder_keys (FTree.node mk mc mh mw ml mr) := root_key_mem _ _ _ _ _ _
                  rw [inorder_keys, hr2] at this
                  exact this
                simp only [fadd_child] at h
                rw [if_neg (by omega : ¬ mk < k)] at h
                cases hrot2 : frotate_left (.node k c hh w l (.node mk mc mh mw ml mr)) with
                | none => rw [hrot2] at h; simp at h
                | some t2 =>
                  rw [hrot2] at h
                  simp only [Option.map_some', Option.some.injEq, Prod.mk.injEq] at h
                  rw [← h.1]
                  rw [inorder_frotate_left _ _ hrot2]
                  show inorder_pairs l ++ (k, c) :: inorder_pairs (FTree.node mk mc mh mw ml mr)
                    = inorder_pairs l ++ (k, c) :: inorder_pairs (FTree.node rk rc rh2 rw2 rl rr)
                  rw [hr2]
          · rw [if_neg hlh2] at h
            simp only [Option.some_bind] at h
            cases hrot2 : frotate_left (.node k c hh w l (.node rk rc rh2 rw2 rl rr)) with
            | none => rw [hrot2] at h; simp at h
            | some t2 =>
              rw [hrot2] at h
              simp only [Option.map_some', Option.some.injEq, Prod.mk.injEq] at h
              rw [← h.1]
              exact inorder_frotate_left _ _ hrot2
      · rw [if_neg hrh] at h
        simp only [Option.some.injEq, Prod.mk.injEq] at h
        rw [← h.1]

theorem plug_all_decomp (ctx : List Crumb) :
    ∀ t : FTree, ∃ A B, inorder_pairs (plug_all t ctx) = A ++ inorder_pairs t ++ B := by
  induction ctx with
  | nil => intro t; exact ⟨[], [], by simp [plug_all]⟩
  | cons c ctx ih =>
    intro t
    obtain ⟨A, B, hAB⟩ := ih (plug_side c t)
    cases c with
    | cleft k cc hh ww sib =>
      refine ⟨A, ((k, cc) :: inorder_pairs sib) ++ B, ?_⟩
      show inorder_pairs (plug_all (plug_side (.cleft k cc hh ww sib) t) ctx) = _
      rw [hAB]
      simp [plug_side, inorder_pairs, List.append_assoc]
    | cright k cc hh ww sib =>
      refine ⟨A ++ inorder_pairs sib ++ [(k, cc)], B, ?_⟩
      show inorder_pairs (plug_all (plug_side (.cright k cc hh ww sib) t) ctx) = _
      rw [hAB]
      simp [plug_side, inorder_pairs, List.append_assoc]

/-- Sortedness of the whole tree restricts to any focused subtree. -/
theorem sorted_restrict (ctx : List Crumb) (t : FTree)
    (hs : List.Pairwise (· < ·) (inorder_keys (plug_all t ctx))) :
    List.Pairwise (· < ·) (inorder_keys t) := by
  obtain ⟨A, B, hAB⟩ := plug_all_decomp ctx t
  have hk : inorder_keys (plug_all t ctx)
      = A.map Prod.fst ++ inorder_keys t ++ B.map Prod.fst := by
    rw [inorder_keys, hAB]; simp [inorder_keys]
  rw [hk] at hs
  have hsub : List.Sublist (inorder_keys t)
      (A.map Prod.fst ++ inorder_keys t ++ B.map Prod.fst) := by
    rw [List.append_assoc]
    exact ((List.sublist_append_left _ _).trans (List.sublist_append_right _ _))
  exact hs.sublist hsub

theorem inorder_plug_all_congr (ctx : List Crumb) :
    ∀ p q : FTree, inorder_pairs p = inorder_pairs q →
      inorder_pairs (plug_all p ctx) = inorder_pairs (plug_all q ctx) := by
  induction ctx with
  | nil => intro p q h; exact h
  | cons c ctx ih =>
    intro p q h
    show inorder_pairs (plug_all (plug_side c p) ctx)
        = inorder_pairs (plug_all (plug_side c q) ctx)
    apply ih
    cases c with
    | cleft k cc hh ww sib => simp [plug_side, inorder_pairs, h]
    | cright k cc hh ww sib => simp [plug_side, inorder_pairs, h]

/-- The full `_balance` walk (dispatch plus recursion on the parents)
preserves the in-order sequence of a sorted tree. -/
theorem fbalance_walk_pres (ctx : List Crumb) :
    ∀ t res : FTree,
      List.Pairwise (· < ·) (inorder_keys (plug_all t ctx)) →
      fbalance_walk t ctx = some res →
      inorder_pairs res = inorder_pairs (plug_all t ctx) := by
  induction ctx with
  | nil =>
    intro t res hs hrun
    simp only [fbalance_walk] at hrun
    cases hstep : fbalance_step t with
    | none => rw [hstep] at hrun; simp at hrun
    | some tr =>
      rw [hstep] at hrun
      simp only [Option.map_some', Option.some.injEq] at hrun
      subst hrun
      exact inorder_fbalance_step t tr.1 tr.2 hs hstep
  | cons c ctx ih =>
    intro t res hs hrun
    simp only [fbalance_walk] at hrun
    cases hstep : fbalance_step t with
    | none => rw [hstep] at hrun; simp at hrun
    | some tr =>
      rw [hstep] at hrun
      simp only [Option.some_bind] at hrun
      have hst : List.Pairwise (· < ·) (inorder_keys t) := sorted_restrict (c :: ctx) t hs
      have hpres : inorder_pairs tr.1 = inorder_pairs t :=
        inorder_fbalance_step t tr.1 tr.2 hst hstep
      have hside : List.Pairwise (· < ·) (inorder_keys (plug_side c t)) :=
        sorted_restrict ctx (plug_side c t) hs
      have hkeys : inorder_keys tr.1 = inorder_keys t := by
        rw [inorder_keys, hpres, inorder_keys]
      have hp : inorder_pairs
          (if tr.2 then fadd_child (plug_side c tr.1) tr.1 else plug_side c tr.1)
          = inorder_pairs (plug_side c t) := by
        have hplug : inorder_pairs (plug_side c tr.1) = inorder_pairs (plug_side c t) := by
          cases c with
          | cleft k cc hh ww sib => simp [plug_side, inorder_pairs, hpres]
          | cright k cc hh ww sib => simp [plug_side, inorder_pairs, hpres]
        by_cases hrot : tr.2
        · rw [if_pos hrot]
          cases htr : tr.1 with
          | leaf =>
            have hfx : fadd_child (plug_side c .leaf) .leaf = plug_side c .leaf := by
              cases c <;> rfl
            rw [hfx]
            exact htr ▸ hplug
          | node mk mc mh mw ml mr =>
            have hmem : mk ∈ inorder_keys t := by
              rw [← hkeys, htr]; exact root_key_mem _ _ _ _ _ _
            cases c with
            | cleft k cc hh ww sib =>
              have hbound : mk < k := by
                have hall : ∀ x ∈ inorder_keys t, x < k := by
                  intro x hx
                  have hside' := hside
                  rw [plug_side, keys_node, List.pairwise_append] at hside'
                  exact hside'.2.2 x hx k (by simp)
                exact hall mk hmem
              show inorder_pairs (fadd_child
                  (FTree.node k cc hh ww (FTree.node mk mc mh mw ml mr) sib)
                  (FTree.node mk mc mh mw ml mr)) = _
              simp only [fadd_child]
              rw [if_pos hbound]
              show inorder_pairs (FTree.node mk mc mh mw ml mr) ++ (k, cc) :: inorder_pairs sib = _
              rw [show inorder_pairs (FTree.node mk mc mh mw ml mr) = inorder_pairs t from htr ▸ hpres]
              simp [plug_side, inorder_pairs]
            | cright k cc hh ww sib =>
              have hbound : k < mk := by
                have hall : ∀ x ∈ inorder_keys t, k < x := by
                  intro x hx
                  have hside' := hside
                  rw [plug_side, keys_node, List.pairwise_append] at hside'
                  exact (List.pairwise_cons.mp hside'.2.1).1 x hx
                exact hall mk hmem
              show inorder_pairs (fadd_child
                  (FTree.node k cc hh ww sib (FTree.node mk mc mh mw ml mr))
                  (FTree.node mk mc mh mw ml mr)) = _
              simp only [fadd_child]
              rw [if_neg (by omega : ¬ mk < k)]
              show inorder_pairs sib ++ (k, cc) :: inorder_pairs (FTree.node mk mc mh mw ml mr) = _
              rw [show inorder_pairs (FTree.node mk mc mh mw ml mr) = inorder_pairs t from htr ▸ hpres]
              simp [plug_side, inorder_pairs]
        · rw [if_neg hrot]
          exact hplug
      have hs' : List.Pairwise (· < ·)
          (inorder_keys (plug_all
            (if tr.2 then fadd_child (plug_side c tr.1) tr.1 else plug_side c tr.1) ctx)) := by
        have := inorder_plug_all_congr ctx _ _ hp
        rw [inorder_keys, this, ← inorder_keys]
        exact hs
      have := ih _ res hs' hrun
      rw [this]
      exact inorder_plug_all_congr ctx _ _ hp

/-- C5: for every tree and every node on which `_balance` is invoked
(represented as a focused subtree `t` with parent context `ctx`), when the
tree's in-order key sequence is strictly increasing and the `_balance` walk
completes, the in-order (key, count) sequence — hence the multiset of keys
— is unchanged, and the in-order key sequence remains strictly
increasing. -/
theorem C5_balance_preserves_keys (t : FTree) (ctx : List Crumb) (res : FTree)
    (hsort : List.Pairwise (· < ·) (inorder_keys (plug_all t ctx)))
    (hrun : fbalance_walk t ctx = some res) :
    inorder_pairs res = inorder_pairs (plug_all t ctx)
    ∧ inorder_keys res = inorder_keys (plug_all t ctx)
    ∧ List.Pairwise (· < ·) (inorder_keys res) := by
  have hpairs := fbalance_walk_pres ctx t res hsort hrun
  have hkeys : inorder_keys res = inorder_keys (plug_all t ctx) := by
    rw [inorder_keys, hpairs, inorder_keys]
  exact ⟨hpairs, hkeys, hkeys ▸ hsort⟩

/-- Witness for C5 at a concrete left-heavy tree whose `_balance` run
performs a left-right double rotation. -/
theorem C5_witness :
    inorder_pairs c5_ex_res = inorder_pairs (plug_all c5_ex_t [])
    ∧ inorder_keys c5_ex_res = inorder_keys (plug_all c5_ex_t [])
    ∧ List.Pairwise (· < ·) (inorder_keys c5_ex_res) :=
  C5_balance_preserves_keys c5_ex_t [] c5_ex_res (by decide) rfl

/-!  Effect lemmas for the heap primitives. -/
theorem modifyRec_rots (st : St) (n : Nat) (f : NodeRec → NodeRec) :
    (modifyRec st n f).rots = st.rots := by
  unfold modifyRec; cases st.heap n <;> rfl

theorem modifyRec_stale (st : St) (n : Nat) (f : NodeRec → NodeRec) :
    (modifyRec st n f).stale = st.stale := by
  unfold modifyRec; cases st.heap n <;> rfl

theorem heap_set_left_self (st : St) (n : Nat) (c : Option Nat) (r : NodeRec)
    (h : st.heap n = some r) (hguard : ∀ m, c = some m → m ≠ n) :
    (set_left st n c).heap n = some { r with left := c } := by
  unfold set_left
  cases c with
  | none => exact heap_modifyRec_same st n _ r h
  | some m =>
    rw [heap_modifyRec_other _ m _ n (Ne.symm (hguard m rfl))]
    exact heap_modifyRec_same st n _ r h

theorem heap_set_left_other (st : St) (n : Nat) (c : Option Nat) (j : Nat)
    (hj : j ≠ n) (hjc : ∀ m, c = some m → j ≠ m) :
    (set_left st n c).heap j = st.heap j := by
  unfold set_left
  cases c with
  | none => exact heap_modifyRec_other st n _ j hj
  | some m =>
    rw [heap_modifyRec_other _ m _ j (hjc m rfl)]
    exact heap_modifyRec_other st n _ j hj

theorem modifyRec_of_none (st : St) (i : Nat) (f : NodeRec → NodeRec)
    (h : st.heap i = none) : modifyRec st i f = st := by
  unfold modifyRec
  rw [h]

theorem heap_set_left_child (st : St) (n m : Nat) (hm : m ≠ n) :
    (set_left st n (some m)).heap m
      = (st.heap m).map (fun r => { r with parent := some n }) := by
  unfold set_left
  dsimp only
  have hin : (modifyRec st n fun r => { r with left := some m }).heap m = st.heap m :=
    heap_modifyRec_other st n _ m hm
  cases hsm : st.heap m with
  | none => rw [modifyRec_of_none _ _ _ (hin.trans hsm), hin, hsm]; rfl
  | some mr =>
    rw [heap_modifyRec_same _ m _ mr (hin.trans hsm)]
    simp [hsm]

theorem root_set_left (st : St) (n : Nat) (c : Option Nat) :
    (set_left st n c).root = st.root := by
  unfold set_left
  cases c with
  | none => exact root_modifyRec st n _
  | some m => rw [root_modifyRec, root_modifyRec]

theorem rots_set_left (st : St) (n : Nat) (c : Option Nat) :
    (set_left st n c).rots = st.rots := by
  unfold set_left
  cases c with
  | none => exact modifyRec_rots st n _
  | some m => rw [modifyRec_rots, modifyRec_rots]

theorem stale_set_left (st : St) (n : Nat) (c : Option Nat) :
    (set_left st n c).stale = st.stale := by
  unfold set_left
  cases c with
  | none => exact modifyRec_stale st n _
  | some m => rw [modifyRec_stale, modifyRec_stale]

theorem heap_set_right_self (st : St) (n : Nat) (c : Option Nat) (r : NodeRec)
    (h : st.heap n = some r) (hguard : ∀ m, c = some m → m ≠ n) :
    (set_right st n c).heap n = some { r with right := c } := by
  unfold set_right
  cases c with
  | none => exact heap_modifyRec_same st n _ r h
  | some m =>
    rw [heap_modifyRec_other _ m _ n (Ne.symm (hguard m rfl))]
    exact heap_modifyRec_same st n _ r h

theorem heap_set_right_other (st : St) (n : Nat) (c : Option Nat) (j : Nat)
    (hj : j ≠ n) (hjc : ∀ m, c = some m → j ≠ m) :
    (set_right st n c).heap j = st.heap j := by
  unfold set_right
  cases c with
  | none => exact heap_modifyRec_other st n _ j hj
  | some m =>
    rw [heap_modifyRec_other _ m _ j (hjc m rfl)]
    exact heap_modifyRec_other st n _ j hj

theorem heap_set_right_child (st : St) (n m : Nat) (hm : m ≠ n) :
    (set_right st n (some m)).heap m
      = (st.heap m).map (fun r => { r with parent := some n }) := by
  unfold set_right
  dsimp only
  have hin : (modifyRec st n fun r => { r with right := some m }).heap m = st.heap m :=
    heap_modifyRec_other st n _ m hm
  cases hsm : st.heap m with
  | none => rw [modifyRec_of_none _ _ _ (hin.trans hsm), hin, hsm]; rfl
  | some mr =>
    rw [heap_modifyRec_same _ m _ mr (hin.trans hsm)]
    simp [hsm]

theorem root_set_right (st : St) (n : Nat) (c : Option Nat) :
    (set_right st n c).root = st.root := by
  unfold set_right
  cases c with
  | none => exact root_modifyRec st n _
  | some m => rw [root_modifyRec, root_modifyRec]

theorem rots_set_right (st : St) (n : Nat) (c : Option Nat) :
    (set_right st n c).rots = st.rots := by
  unfold set_right
  cases c with
  | none => exact modifyRec_rots st n _
  | some m => rw [modifyRec_rots, modifyRec_rots]

theorem stale_set_right (st : St) (n : Nat) (c : Option Nat) :
    (set_right st n c).stale = st.stale := by
  unfold set_right
  cases c with
  | none => exact modifyRec_stale st n _
  | some m => rw [modifyRec_stale, modifyRec_stale]

theorem heap_write_parent_self (st : St) (n : Nat) (p : Option Nat) (r : NodeRec)
    (h : st.heap n = some r) :
    (write_parent st n p).heap n = some { r with parent := p } :=
  heap_modifyRec_same st n _ r h

theorem heap_write_parent_other (st : St) (n : Nat) (p : Option Nat) (j : Nat)
    (hj : j ≠ n) : (write_parent st n p).heap j = st.heap j :=
  heap_modifyRec_other st n _ j hj

theorem heap_update_self (st : St) (n : Nat) (r : NodeRec)
    (h : st.heap n = some r) :
    (update st n).heap n
      = some { r with
          weight := (getRec st n).count + left_weight st n + right_weight st n,
          height := 1 + max (left_height st n) (right_height st n) } :=
  heap_modifyRec_same st n _ r h

theorem heap_update_other (st : St) (n : Nat) (j : Nat) (hj : j ≠ n) :
    (update st n).heap j = st.heap j :=
  heap_modifyRec_other st n _ j hj

theorem root_update (st : St) (n : Nat) : (update st n).root = st.root :=
  root_modifyRec st n _

theorem rots_update (st : St) (n : Nat) : (update st n).rots = st.rots :=
  modifyRec_rots st n _

theorem stale_update (st : St) (n : Nat) : (update st n).stale = st.stale :=
  modifyRec_stale st n _

theorem root_write_parent (st : St) (n : Nat) (p : Option Nat) :
    (write_parent st n p).root = st.root :=
  root_modifyRec st n _

theorem rots_write_parent (st : St) (n : Nat) (p : Option Nat) :
    (write_parent st n p).rots = st.rots :=
  modifyRec_rots st n _

theorem stale_write_parent (st : St) (n : Nat) (p : Option Nat) :
    (write_parent st n p).stale = st.stale :=
  modifyRec_stale st n _

theorem getRec_log_rot (st : St) (b : Bool) (k : Int) (i : Nat) :
    getRec (log_rot st b k) i = getRec st i := rfl

theorem root_add_child (st : St) (p x : Nat) : (add_child st p x).root = st.root := by
  unfold add_child
  split
  · rw [root_set_left]
  · rw [root_set_right]

theorem rots_add_child (st : St) (p x : Nat) : (add_child st p x).rots = st.rots := by
  unfold add_child
  split
  · rw [rots_set_left]
  · rw [rots_set_right]

theorem stale_add_child (st : St) (p x : Nat) : (add_child st p x).stale = st.stale := by
  unfold add_child
  split
  · rw [stale_set_left]
  · rw [stale_set_right]

/-- Complete post-state of `_rotate_left(node, heavy_child)` on a heap
whose relevant links are acyclic: the final records of the rotated node,
the heavy child, the moved-across child, and the original parent, the
frame (every other cell untouched), the root assignment, and the ghost
fields. -/
theorem rotate_left_spec (st : St) (n hc : Nat) (nr hcr : NodeRec)
    (hn : st.heap n = some nr) (hhc : st.heap hc = some hcr)
    (hne : n ≠ hc)
    (hnl : nr.left ≠ some n)
    (hmv : ∀ m, hcr.left = some m → m ≠ n ∧ m ≠ hc)
    (hhr : hcr.right ≠ some n ∧ hcr.right ≠ some hc)
    (hpar : ∀ p, nr.parent = some p → p ≠ n ∧ p ≠ hc ∧ ∀ m, hcr.left = some m → p ≠ m) :
    ∀ st', _rotate_left st n (some hc) = some st' →
      st'.heap n = some { nr with
          right := hcr.left,
          parent := some hc,
          weight := nr.count + child_w st nr.left + child_w st hcr.left,
          height := 1 + max (child_h st nr.left) (child_h st hcr.left) }
      ∧ st'.heap hc = some { hcr with
          left := some n,
          parent := nr.parent,
          weight := hcr.count
            + (nr.count + child_w st nr.left + child_w st hcr.left)
            + child_w st hcr.right,
          height := 1 + max
            (1 + max (child_h st nr.left) (child_h st hcr.left))
            (child_h st hcr.right) }
      ∧ (∀ m, hcr.left = some m →
          st'.heap m = (st.heap m).map fun mr => { mr with parent := some n })
      ∧ (∀ p pr, nr.parent = some p → st.heap p = some pr →
          st'.heap p = some (if hcr.key < pr.key
            then { pr with left := some hc } else { pr with right := some hc }))
      ∧ (∀ j, j ≠ n → j ≠ hc → (∀ m, hcr.left = some m → j ≠ m) →
          (∀ p, nr.parent = some p → j ≠ p) → st'.heap j = st.heap j)
      ∧ st'.root = (match nr.parent with | some _ => st.root | none => some hc)
      ∧ st'.rots = st.rots ++ [(true, nr.key)]
      ∧ st'.stale = st.stale := by
  intro st' hrot
  have hG : getRec st n = nr := by simp [getRec, hn]
  have hGhc : getRec st hc = hcr := by simp [getRec, hhc]
  rw [_rotate_left] at hrot
  simp only [getRec_log_rot, hG, hGhc] at hrot
  -- the pre-reattach state
  set st1 := set_right (log_rot st true nr.key) n hcr.left with hst1
  set st2 := update st1 n with hst2
  set st3 := write_parent st2 hc nr.parent with hst3
  set st4 := set_left st3 hc (some n) with hst4
  set st5 := update st4 hc with hst5
  -- heap facts along the chain
  have h0 : (log_rot st true nr.key).heap = st.heap := rfl
  have h1n : st1.heap n = some { nr with right := hcr.left } := by
    rw [hst1]
    exact heap_set_right_self _ n hcr.left nr (by rw [h0]; exact hn)
      (fun m hm => (hmv m hm).1)
  have h1hc : st1.heap hc = some hcr := by
    rw [hst1, heap_set_right_other _ n hcr.left hc (Ne.symm hne)
      (fun m hm => Ne.symm (hmv m hm).2), h0]
    exact hhc
  have h1m : ∀ m, hcr.left = some m →
      st1.heap m = (st.heap m).map fun mr => { mr with parent := some n } := by
    intro m hm
    rw [hst1, hm]
    exact heap_set_right_child _ n m (hmv m hm).1
  have h1o : ∀ j, j ≠ n → (∀ m, hcr.left = some m → j ≠ m) →
      st1.heap j = st.heap j := by
    intro j hjn hjm
    rw [hst1, heap_set_right_other _ n hcr.left j hjn hjm, h0]
  have h1hw : ∀ x, x ≠ n → (getRec st1 x).height = (getRec st x).height
      ∧ (getRec st1 x).weight = (getRec st x).weight := by
    intro x hx
    cases hcl : hcr.left with
    | none =>
      rw [getRec, h1o x hx (by intro m hm; rw [hcl] at hm; exact absurd hm (by simp)), getRec]
      exact ⟨rfl, rfl⟩
    | some m =>
      by_cases hxm : x = m
      · subst hxm
        rw [getRec, h1m x hcl]
        cases hsx : st.heap x <;> simp [getRec, hsx]
      · rw [getRec, h1o x hx (fun m' hm' => by rw [hcl] at hm'; cases hm'; exact hxm), getRec]
        exact ⟨rfl, rfl⟩
  have hLH1 : left_height st1 n = child_h st nr.left := by
    rw [left_height, getRec, h1n]
    show (match nr.left with
          | some l => (getRec st1 l).height
          | none => -1) = child_h st nr.left
    cases hnl2 : nr.left with
    | none => rfl
    | some l0 =>
      have hl0 : l0 ≠ n := fun h => hnl (by rw [hnl2, h])
      show (getRec st1 l0).height = (getRec st l0).height
      exact (h1hw l0 hl0).1
  have hRH1 : right_height st1 n = child_h st hcr.left := by
    rw [right_height, getRec, h1n]
    show (match hcr.left with
          | some m => (getRec st1 m).height
          | none => -1) = child_h st hcr.left
    cases hcl : hcr.left with
    | none => rfl
    | some m =>
      show (getRec st1 m).height = (getRec st m).height
      exact (h1hw m (hmv m hcl).1).1
  have hLW1 : left_weight st1 n = child_w st nr.left := by
    rw [left_weight, getRec, h1n]
    show (match nr.left with
          | some l => (getRec st1 l).weight
          | none => 0) = child_w st nr.left
    cases hnl2 : nr.left with
    | none => rfl
    | some l0 =>
      have hl0 : l0 ≠ n := fun h => hnl (by rw [hnl2, h])
      show (getRec st1 l0).weight = (getRec st l0).weight
      exact (h1hw l0 hl0).2
  have hRW1 : right_weight st1 n = child_w st hcr.left := by
    rw [right_weight, getRec, h1n]
    show (match hcr.left with
          | some m => (getRec st1 m).weight
          | none => 0) = child_w st hcr.left
    cases hcl : hcr.left with
    | none => rfl
    | some m =>
      show (getRec st1 m).weight = (getRec st m).weight
      exact (h1hw m (hmv m hcl).1).2
  have hC1 : (getRec st1 n).count = nr.count := by rw [getRec, h1n]; rfl
  have h2n : st2.heap n = some { nr with
      right := hcr.left,
      weight := nr.count + child_w st nr.left + child_w st hcr.left,
      height := 1 + max (child_h st nr.left) (child_h st hcr.left) } := by
    rw [hst2, heap_update_self st1 n _ h1n, hC1, hLW1, hRW1, hLH1, hRH1]
  have h2o : ∀ j, j ≠ n → st2.heap j = st1.heap j := by
    intro j hj
    rw [hst2, heap_update_other st1 n j hj]
  have h3hc : st3.heap hc = some { hcr with parent := nr.parent } := by
    rw [hst3]
    exact heap_write_parent_self st2 hc nr.parent hcr (by rw [h2o hc (Ne.symm hne), h1hc])
  have h3o : ∀ j, j ≠ hc → st3.heap j = st2.heap j := by
    intro j hj
    rw [hst3, heap_write_parent_other st2 hc nr.parent j hj]
  have h4hc : st4.heap hc = some { hcr with left := some n, parent := nr.parent } := by
    rw [hst4]
    have := heap_set_left_self st3 hc (some n) { hcr with parent := nr.parent } h3hc
      (fun m hm => by cases hm; exact hne)
    rw [this]
  have h4n : st4.heap n = some { nr with
      right := hcr.left,
      parent := some hc,
      weight := nr.count + child_w st nr.left + child_w st hcr.left,
      height := 1 + max (child_h st nr.left) (child_h st hcr.left) } := by
    rw [hst4, heap_set_left_child st3 hc n hne, h3o n hne, h2n]
    rfl
  have h4o : ∀ j, j ≠ n → j ≠ hc → st4.heap j = st2.heap j := by
    intro j hjn hjhc
    rw [hst4, heap_set_left_other st3 hc (some n) j hjhc
      (fun m hm => by cases hm; exact hjn), h3o j hjhc]
  have h4hw : ∀ x, x ≠ n → x ≠ hc → (getRec st4 x).height = (getRec st x).height
      ∧ (getRec st4 x).weight = (getRec st x).weight := by
    intro x hxn hxhc
    rw [getRec, h4o x hxn hxhc, h2o x hxn, ← getRec]
    exact h1hw x hxn
  have hC4 : (getRec st4 hc).count = hcr.count := by rw [getRec, h4hc]; rfl
  have hLH4 : left_height st4 hc
      = 1 + max (child_h st nr.left) (child_h st hcr.left) := by
    rw [left_height, getRec, h4hc]
    show (getRec st4 n).height = _
    rw [getRec, h4n]
    rfl
  have hLW4 : left_weight st4 hc
      = nr.count + child_w st nr.left + child_w st hcr.left := by
    rw [left_weight, getRec, h4hc]
    show (getRec st4 n).weight = _
    rw [getRec, h4n]
    rfl
  have hRH4 : right_height st4 hc = child_h st hcr.right := by
    rw [right_height, getRec, h4hc]
    show (match hcr.right with
          | some r0 => (getRec st4 r0).height
          | none => -1) = child_h st hcr.right
    cases hcrr : hcr.right with
    | none => rfl
    | some r0 =>
      have h1 : r0 ≠ n := fun h => hhr.1 (by rw [hcrr, h])
      have h2 : r0 ≠ hc := fun h => hhr.2 (by rw [hcrr, h])
      show (getRec st4 r0).height = (getRec st r0).height
      exact (h4hw r0 h1 h2).1
  have hRW4 : right_weight st4 hc = child_w st hcr.right := by
    rw [right_weight, getRec, h4hc]
    show (match hcr.right with
          | some r0 => (getRec st4 r0).weight
          | none => 0) = child_w st hcr.right
    cases hcrr : hcr.right with
    | none => rfl
    | some r0 =>
      have h1 : r0 ≠ n := fun h => hhr.1 (by rw [hcrr, h])
      have h2 : r0 ≠ hc := fun h => hhr.2 (by rw [hcrr, h])
      show (getRec st4 r0).weight = (getRec st r0).weight
      exact (h4hw r0 h1 h2).2
  have h5hc : st5.heap hc = some { hcr with
      left := some n,
      parent := nr.parent,
      weight := hcr.count
        + (nr.count + child_w st nr.left + child_w st hcr.left)
        + child_w st hcr.right,
      height := 1 + max
        (1 + max (child_h st nr.left) (child_h st hcr.left))
        (child_h st hcr.right) } := by
    rw [hst5, heap_update_self st4 hc _ h4hc, hC4, hLW4, hRW4, hLH4, hRH4]
  have h5n : st5.heap n = some { nr with
      right := hcr.left,
      parent := some hc,
      weight := nr.count + child_w st nr.left + child_w st hcr.left,
      height := 1 + max (child_h st nr.left) (child_h st hcr.left) } := by
    rw [hst5, heap_update_other st4 hc n hne, h4n]
  have h5m : ∀ m, hcr.left = some m →
      st5.heap m = (st.heap m).map fun mr => { mr with parent := some n } := by
    intro m hm
    rw [hst5, heap_update_other st4 hc m (hmv m hm).2,
      h4o m (hmv m hm).1 (hmv m hm).2, h2o m (hmv m hm).1]
    exact h1m m hm
  have h5o : ∀ j, j ≠ n → j ≠ hc → (∀ m, hcr.left = some m → j ≠ m) →
      st5.heap j = st.heap j := by
    intro j hjn hjhc hjm
    rw [hst5, heap_update_other st4 hc j hjhc, h4o j hjn hjhc, h2o j hjn]
    exact h1o j hjn hjm
  have hroot5 : st5.root = st.root := by
    rw [hst5, root_update, hst4, root_set_left, hst3, root_write_parent,
      hst2, root_update, hst1, root_set_right]
    rfl
  have hrots5 : st5.rots = st.rots ++ [(true, nr.key)] := by
    rw [hst5, rots_update, hst4, rots_set_left, hst3, rots_write_parent,
      hst2, rots_update, hst1, rots_set_right]
    rfl
  have hstale5 : st5.stale = st.stale := by
    rw [hst5, stale_update, hst4, stale_set_left, hst3, stale_write_parent,
      hst2, stale_update, hst1, stale_set_right]
    rfl
  -- reattach
  cases hp : nr.parent with
  | none =>
    rw [hp] at hrot
    simp only [Option.some.injEq] at hrot
    subst hrot
    refine ⟨h5n, by rw [h5hc, hp], h5m, ?_, ?_, ?_, hrots5, hstale5⟩
    · intro p pr hpp
      exact absurd hpp (by simp)
    · intro j hjn hjhc hjm _
      exact h5o j hjn hjhc hjm
    · rfl
  | some p =>
    rw [hp] at hrot
    simp only [Option.some.injEq] at hrot
    subst hrot
    obtain ⟨hpn, hphc, hpm⟩ := hpar p hp
    have h5p : st5.heap p = st.heap p := h5o p hpn hphc hpm
    have hkey : (getRec st5 hc).key = hcr.key := by rw [getRec, h5hc]; rfl
    have hpkey : (getRec st5 p).key = (getRec st p).key := by
      rw [getRec, h5p, getRec]
    constructor
    · rw [add_child, hkey, hpkey]
      split
      · rw [heap_set_left_other st5 p (some hc) n hpn.symm
          (fun m hm => by cases hm; exact hne)]
        exact h5n
      · rw [heap_set_right_other st5 p (some hc) n hpn.symm
          (fun m hm => by cases hm; exact hne)]
        exact h5n
    constructor
    · rw [add_child, hkey, hpkey]
      split
      · rw [heap_set_left_child st5 p hc hphc.symm, h5hc, hp]
        rfl
      · rw [heap_set_right_child st5 p hc hphc.symm, h5hc, hp]
        rfl
    constructor
    · intro m hm
      rw [add_child, hkey, hpkey]
      have hmp : m ≠ p := Ne.symm (hpm m hm)
      have hmhc : m ≠ hc := (hmv m hm).2
      split
      · rw [heap_set_left_other st5 p (some hc) m hmp
          (fun m' hm' => by cases hm'; exact hmhc)]
        exact h5m m hm
      · rw [heap_set_right_other st5 p (some hc) m hmp
          (fun m' hm' => by cases hm'; exact hmhc)]
        exact h5m m hm
    constructor
    · intro q pr hq hqr
      cases hq
      have hpr5 : st5.heap p = some pr := by rw [h5p]; exact hqr
      have hprk : (getRec st p).key = pr.key := by simp [getRec, hqr]
      rw [add_child, hkey, hpkey, hprk]
      split
      · rw [heap_set_left_self st5 p (some hc) pr hpr5
          (fun m hm => by cases hm; exact Ne.symm hphc)]
      · rw [heap_set_right_self st5 p (some hc) pr hpr5
          (fun m hm => by cases hm; exact Ne.symm hphc)]
    constructor
    · intro j hjn hjhc hjm hjp
      rw [add_child, hkey, hpkey]
      have hjp' : j ≠ p := hjp p rfl
      split
      · rw [heap_set_left_other st5 p (some hc) j hjp'
          (fun m hm => by cases hm; exact hjhc)]
        exact h5o j hjn hjhc hjm
      · rw [heap_set_right_other st5 p (some hc) j hjp'
          (fun m hm => by cases hm; exact hjhc)]
        exact h5o j hjn hjhc hjm
    refine ⟨?_, ?_, ?_⟩
    · rw [root_add_child, hroot5]
    · rw [rots_add_child, hrots5]
    · rw [stale_add_child, hstale5]

/-- Complete post-state of `_rotate_right(node, heavy_child)`: the mirror
image of `rotate_left_spec`. -/
theorem rotate_right_spec (st : St) (n hc : Nat) (nr hcr : NodeRec)
    (hn : st.heap n = some nr) (hhc : st.heap hc = some hcr)
    (hne : n ≠ hc)
    (hnr : nr.right ≠ some n)
    (hmv : ∀ m, hcr.right = some m → m ≠ n ∧ m ≠ hc)
    (hhl : hcr.left ≠ some n ∧ hcr.left ≠ some hc)
    (hpar : ∀ p, nr.parent = some p → p ≠ n ∧ p ≠ hc ∧ ∀ m, hcr.right = some m → p ≠ m) :
    ∀ st', _rotate_right st n (some hc) = some st' →
      st'.heap n = some { nr with
          left := hcr.right,
          parent := some hc,
          weight := nr.count + child_w st hcr.right + child_w st nr.right,
          height := 1 + max (child_h st hcr.right) (child_h st nr.right) }
      ∧ st'.heap hc = some { hcr with
          right := some n,
          parent := nr.parent,
          weight := hcr.count + child_w st hcr.left
            + (nr.count + child_w st hcr.right + child_w st nr.right),
          height := 1 + max (child_h st hcr.left)
            (1 + max (child_h st hcr.right) (child_h st nr.right)) }
      ∧ (∀ m, hcr.right = some m →
          st'.heap m = (st.heap m).map fun mr => { mr with parent := some n })
      ∧ (∀ p pr, nr.parent = some p → st.heap p = some pr →
          st'.heap p = some (if hcr.key < pr.key
            then { pr with left := some hc } else { pr with right := some hc }))
      ∧ (∀ j, j ≠ n → j ≠ hc → (∀ m, hcr.right = some m → j ≠ m) →
          (∀ p, nr.parent = some p → j ≠ p) → st'.heap j = st.heap j)
      ∧ st'.root = (match nr.parent with | some _ => st.root | none => some hc)
      ∧ st'.rots = st.rots ++ [(false, nr.key)]
      ∧ st'.stale = st.stale := by
  intro st' hrot
  have hG : getRec st n = nr := by simp [getRec, hn]
  have hGhc : getRec st hc = hcr := by simp [getRec, hhc]
  rw [_rotate_right] at hrot
  simp only [getRec_log_rot, hG, hGhc] at hrot
  set st1 := set_left (log_rot st false nr.key) n hcr.right with hst1
  set st2 := update st1 n with hst2
  set st3 := write_parent st2 hc nr.parent with hst3
  set st4 := set_right st3 hc (some n) with hst4
  set st5 := update st4 hc with hst5
  have h0 : (log_rot st false nr.key).heap = st.heap := rfl
  have h1n : st1.heap n = some { nr with left := hcr.right } := by
    rw [hst1]
    exact heap_set_left_self _ n hcr.right nr (by rw [h0]; exact hn)
      (fun m hm => (hmv m hm).1)
  have h1hc : st1.heap hc = some hcr := by
    rw [hst1, heap_set_left_other _ n hcr.right hc (Ne.symm hne)
      (fun m hm => Ne.symm (hmv m hm).2), h0]
    exact hhc
  have h1m : ∀ m, hcr.right = some m →
      st1.heap m = (st.heap m).map fun mr => { mr with parent := some n } := by
    intro m hm
    rw [hst1, hm]
    exact heap_set_left_child _ n m (hmv m hm).1
  have h1o : ∀ j, j ≠ n → (∀ m, hcr.right = some m → j ≠ m) →
      st1.heap j = st.heap j := by
    intro j hjn hjm
    rw [hst1, heap_set_left_other _ n hcr.right j hjn hjm, h0]
  have h1hw : ∀ x, x ≠ n → (getRec st1 x).height = (getRec st x).height
      ∧ (getRec st1 x).weight = (getRec st x).weight := by
    intro x hx
    cases hcl : hcr.right with
    | none =>
      rw [getRec, h1o x hx (by intro m hm; rw [hcl] at hm; exact absurd hm (by simp)), getRec]
      exact ⟨rfl, rfl⟩
    | some m =>
      by_cases hxm : x = m
      · subst hxm
        rw [getRec, h1m x hcl]
        cases hsx : st.heap x <;> simp [getRec, hsx]
      · rw [getRec, h1o x hx (fun m' hm' => by rw [hcl] at hm'; cases hm'; exact hxm), getRec]
        exact ⟨rfl, rfl⟩
  have hLH1 : left_height st1 n = child_h st hcr.right := by
    rw [left_height, getRec, h1n]
    show (match hcr.right with
          | some m => (getRec st1 m).height
          | none => -1) = child_h st hcr.right
    cases hcl : hcr.right with
    | none => rfl
    | some m =>
      show (getRec st1 m).height = (getRec st m).height
      exact (h1hw m (hmv m hcl).1).1
  have hRH1 : right_height st1 n = child_h st nr.right := by
    rw [right_height, getRec, h1n]
    show (match nr.right with
          | some r0 => (getRec st1 r0).height
          | none => -1) = child_h st nr.right
    cases hnr2 : nr.right with
    | none => rfl
    | some r0 =>
      have hr0 : r0 ≠ n := fun h => hnr (by rw [hnr2, h])
      show (getRec st1 r0).height = (getRec st r0).height
      exact (h1hw r0 hr0).1
  have hLW1 : left_weight st1 n = child_w st hcr.right := by
    rw [left_weight, getRec, h1n]
    show (match hcr.right with
          | some m => (getRec st1 m).weight
          | none => 0) = child_w st hcr.right
    cases hcl : hcr.right with
    | none => rfl
    | some m =>
      show (getRec st1 m).weight = (getRec st m).weight
      exact (h1hw m (hmv m hcl).1).2
  have hRW1 : right_weight st1 n = child_w st nr.right := by
    rw [right_weight, getRec, h1n]
    show (match nr.right with
          | some r0 => (getRec st1 r0).weight
          | none => 0) = child_w st nr.right
    cases hnr2 : nr.right with
    | none => rfl
    | some r0 =>
      have hr0 : r0 ≠ n := fun h => hnr (by rw [hnr2, h])
      show (getRec st1 r0).weight = (getRec st r0).weight
      exact (h1hw r0 hr0).2
  have hC1 : (getRec st1 n).count = nr.count := by rw [getRec, h1n]; rfl
  have h2n : st2.heap n = some { nr with
      left := hcr.right,
      weight := nr.count + child_w st hcr.right + child_w st nr.right,
      height := 1 + max (child_h st hcr.right) (child_h st nr.right) } := by
    rw [hst2, heap_update_self st1 n _ h1n, hC1, hLW1, hRW1, hLH1, hRH1]
  have h2o : ∀ j, j ≠ n → st2.heap j = st1.heap j := by
    intro j hj
    rw [hst2, heap_update_other st1 n j hj]
  have h3hc : st3.heap hc = some { hcr with parent := nr.parent } := by
    rw [hst3]
    exact heap_write_parent_self st2 hc nr.parent hcr (by rw [h2o hc (Ne.symm hne), h1hc])
  have h3o : ∀ j, j ≠ hc → st3.heap j = st2.heap j := by
    intro j hj
    rw [hst3, heap_write_parent_other st2 hc nr.parent j hj]
  have h4hc : st4.heap hc = some { hcr with right := some n, parent := nr.parent } := by
    rw [hst4]
    have := heap_set_right_self st3 hc (some n) { hcr with parent := nr.parent } h3hc
      (fun m hm => by cases hm; exact hne)
    rw [this]
  have h4n : st4.heap n = some { nr with
      left := hcr.right,
      parent := some hc,
      weight := nr.count + child_w st hcr.right + child_w st nr.right,
      height := 1 + max (child_h st hcr.right) (child_h st nr.right) } := by
    rw [hst4, heap_set_right_child st3 hc n hne, h3o n hne, h2n]
    rfl
  have h4o : ∀ j, j ≠ n → j ≠ hc → st4.heap j = st2.heap j := by
    intro j hjn hjhc
    rw [hst4, heap_set_right_other st3 hc (some n) j hjhc
      (fun m hm => by cases hm; exact hjn), h3o j hjhc]
  have h4hw : ∀ x, x ≠ n → x ≠ hc → (getRec st4 x).height = (getRec st x).height
      ∧ (getRec st4 x).weight = (getRec st x).weight := by
    intro x hxn hxhc
    rw [getRec, h4o x hxn hxhc, h2o x hxn, ← getRec]
    exact h1hw x hxn
  have hC4 : (getRec st4 hc).count = hcr.count := by rw [getRec, h4hc]; rfl
  have hRH4 : right_height st4 hc
      = 1 + max (child_h st hcr.right) (child_h st nr.right) := by
    rw [right_height, getRec, h4hc]
    show (getRec st4 n).height = _
    rw [getRec, h4n]
    rfl
  have hRW4 : right_weight st4 hc
      = nr.count + child_w st hcr.right + child_w st nr.right := by
    rw [right_weight, getRec, h4hc]
    show (getRec st4 n).weight = _
    rw [getRec, h4n]
    rfl
  have hLH4 : left_height st4 hc = child_h st hcr.left := by
    rw [left_height, getRec, h4hc]
    show (match hcr.left with
          | some l0 => (getRec st4 l0).height
          | none => -1) = child_h st hcr.left
    cases hcll : hcr.left with
    | none => rfl
    | some l0 =>
      have h1 : l0 ≠ n := fun h => hhl.1 (by rw [hcll, h])
      have h2 : l0 ≠ hc := fun h => hhl.2 (by rw [hcll, h])
      show (getRec st4 l0).height = (getRec st l0).height
      exact (h4hw l0 h1 h2).1
  have hLW4 : left_weight st4 hc = child_w st hcr.left := by
    rw [left_weight, getRec, h4hc]
    show (match hcr.left with
          | some l0 => (getRec st4 l0).weight
          | none => 0) = child_w st hcr.left
    cases hcll : hcr.left with
    | none => rfl
    | some l0 =>
      have h1 : l0 ≠ n := fun h => hhl.1 (by rw [hcll, h])
      have h2 : l0 ≠ hc := fun h => hhl.2 (by rw [hcll, h])
      show (getRec st4 l0).weight = (getRec st l0).weight
      exact (h4hw l0 h1 h2).2
  have h5hc : st5.heap hc = some { hcr with
      right := some n,
      parent := nr.parent,
      weight := hcr.count + child_w st hcr.left
        + (nr.count + child_w st hcr.right + child_w st nr.right),
      height := 1 + max (child_h st hcr.left)
        (1 + max (child_h st hcr.right) (child_h st nr.right)) } := by
    rw [hst5, heap_update_self st4 hc _ h4hc, hC4, hLW4, hRW4, hLH4, hRH4]
  have h5n : st5.heap n = some { nr with
      left := hcr.right,
      parent := some hc,
      weight := nr.count + child_w st hcr.right + child_w st nr.right,
      height := 1 + max (child_h st hcr.right) (child_h st nr.right) } := by
    rw [hst5, heap_update_other st4 hc n hne, h4n]
  have h5m : ∀ m, hcr.right = some m →
      st5.heap m = (st.heap m).map fun mr => { mr with parent := some n } := by
    intro m hm
    rw [hst5, heap_update_other st4 hc m (hmv m hm).2,
      h4o m (hmv m hm).1 (hmv m hm).2, h2o m (hmv m hm).1]
    exact h1m m hm
  have h5o : ∀ j, j ≠ n → j ≠ hc → (∀ m, hcr.right = some m → j ≠ m) →
      st5.heap j = st.heap j := by
    intro j hjn hjhc hjm
    rw [hst5, heap_update_other st4 hc j hjhc, h4o j hjn hjhc, h2o j hjn]
    exact h1o j hjn hjm
  have hroot5 : st5.root = st.root := by
    rw [hst5, root_update, hst4, root_set_right, hst3, root_write_parent,
      hst2, root_update, hst1, root_set_left]
    rfl
  have hrots5 : st5.rots = st.rots ++ [(false, nr.key)] := by
    rw [hst5, rots_update, hst4, rots_set_right, hst3, rots_write_parent,
      hst2, rots_update, hst1, rots_set_left]
    rfl
  have hstale5 : st5.stale = st.stale := by
    rw [hst5, stale_update, hst4, stale_set_right, hst3, stale_write_parent,
      hst2, stale_update, hst1, stale_set_left]
    rfl
  cases hp : nr.parent with
  | none =>
    rw [hp] at hrot
    simp only [Option.some.injEq] at hrot
    subst hrot
    refine ⟨h5n, by rw [h5hc, hp], h5m, ?_, ?_, ?_, hrots5, hstale5⟩
    · intro p pr hpp
      exact absurd hpp (by simp)
    · intro j hjn hjhc hjm _
      exact h5o j hjn hjhc hjm
    · rfl
  | some p =>
    rw [hp] at hrot
    simp only [Option.some.injEq] at hrot
    subst hrot
    obtain ⟨hpn, hphc, hpm⟩ := hpar p hp
    have h5p : st5.heap p = st.heap p := h5o p hpn hphc hpm
    have hkey : (getRec st5 hc).key = hcr.key := by rw [getRec, h5hc]; rfl
    have hpkey : (getRec st5 p).key = (getRec st p).key := by
      rw [getRec, h5p, getRec]
    constructor
    · rw [add_child, hkey, hpkey]
      split
      · rw [heap_set_left_other st5 p (some hc) n hpn.symm
          (fun m hm => by cases hm; exact hne)]
        exact h5n
      · rw [heap_set_right_other st5 p (some hc) n hpn.symm
          (fun m hm => by cases hm; exact hne)]
        exact h5n
    constructor
    · rw [add_child, hkey, hpkey]
      split
      · rw [heap_set_left_child st5 p hc hphc.symm, h5hc, hp]
        rfl
      · rw [heap_set_right_child st5 p hc hphc.symm, h5hc, hp]
        rfl
    constructor
    · intro m hm
      rw [add_child, hkey, hpkey]
      have hmp : m ≠ p := Ne.symm (hpm m hm)
      have hmhc : m ≠ hc := (hmv m hm).2
      split
      · rw [heap_set_left_other st5 p (some hc) m hmp
          (fun m' hm' => by cases hm'; exact hmhc)]
        exact h5m m hm
      · rw [heap_set_right_other st5 p (some hc) m hmp
          (fun m' hm' => by cases hm'; exact hmhc)]
        exact h5m m hm
    constructor
    · intro q pr hq hqr
      cases hq
      have hpr5 : st5.heap p = some pr := by rw [h5p]; exact hqr
      have hprk : (getRec st p).key = pr.key := by simp [getRec, hqr]
      rw [add_child, hkey, hpkey, hprk]
      split
      · rw [heap_set_left_self st5 p (some hc) pr hpr5
          (fun m hm => by cases hm; exact Ne.symm hphc)]
      · rw [heap_set_right_self st5 p (some hc) pr hpr5
          (fun m hm => by cases hm; exact Ne.symm hphc)]
    constructor
    · intro j hjn hjhc hjm hjp
      rw [add_child, hkey, hpkey]
      have hjp' : j ≠ p := hjp p rfl
      split
      · rw [heap_set_left_other st5 p (some hc) j hjp'
          (fun m hm => by cases hm; exact hjhc)]
        exact h5o j hjn hjhc hjm
      · rw [heap_set_right_other st5 p (some hc) j hjp'
          (fun m hm => by cases hm; exact hjhc)]
        exact h5o j hjn hjhc hjm
    refine ⟨?_, ?_, ?_⟩
    · rw [root_add_child, hroot5]
    · rw [rots_add_child, hrots5]
    · rw [stale_add_child, hstale5]

/-- C3: observable effect of the rotation step sequence.  After
`_rotate_left(node, heavy_child)`: `node.right` holds the heavy child's
former left child; `node`'s height/weight were recomputed at that point
(from its unchanged left child and the moved child); `heavy_child.parent`
holds `node`'s original parent; `heavy_child.left` holds `node` (whose
parent back-link now points at the heavy child); `heavy_child`'s
height/weight were recomputed after `node`'s (they read `node`'s new
height/weight); finally the heavy child is re-attached: through
`add_child` (slot chosen by key comparison) when the original parent
exists, as the tree root otherwise.  `_rotate_right` is the exact mirror
image with left and right swapped throughout. -/
theorem C3_rotate_steps (st : St) (n hc : Nat) (nr hcr : NodeRec)
    (hn : st.heap n = some nr) (hhc : st.heap hc = some hcr)
    (hne : n ≠ hc)
    (hnl : nr.left ≠ some n) (hnr : nr.right ≠ some n)
    (hmvL : ∀ m, hcr.left = some m → m ≠ n ∧ m ≠ hc)
    (hmvR : ∀ m, hcr.right = some m → m ≠ n ∧ m ≠ hc)
    (hpar : ∀ p, nr.parent = some p → p ≠ n ∧ p ≠ hc
      ∧ (∀ m, hcr.left = some m → p ≠ m) ∧ (∀ m, hcr.right = some m → p ≠ m)) :
    (∀ st', _rotate_left st n (some hc) = some st' →
      (getRec st' n).right = hcr.left
      ∧ (getRec st' n).height = 1 + max (child_h st nr.left) (child_h st hcr.left)
      ∧ (getRec st' n).weight = nr.count + child_w st nr.left + child_w st hcr.left
      ∧ (getRec st' hc).parent = nr.parent
      ∧ (getRec st' hc).left = some n
      ∧ (getRec st' n).parent = some hc
      ∧ (getRec st' hc).height = 1 + max (getRec st' n).height (child_h st hcr.right)
      ∧ (getRec st' hc).weight = hcr.count + (getRec st' n).weight + child_w st hcr.right
      ∧ (nr.parent = none → st'.root = some hc)
      ∧ (∀ p pr, nr.parent = some p → st.heap p = some pr →
          st'.root = st.root
          ∧ st'.heap p = some (if hcr.key < pr.key then { pr with left := some hc }
              else { pr with right := some hc })))
    ∧ (∀ st', _rotate_right st n (some hc) = some st' →
      (getRec st' n).left = hcr.right
      ∧ (getRec st' n).height = 1 + max (child_h st hcr.right) (child_h st nr.right)
      ∧ (getRec st' n).weight = nr.count + child_w st hcr.right + child_w st nr.right
      ∧ (getRec st' hc).parent = nr.parent
      ∧ (getRec st' hc).right = some n
      ∧ (getRec st' n).parent = some hc
      ∧ (getRec st' hc).height = 1 + max (child_h st hcr.left) (getRec st' n).height
      ∧ (getRec st' hc).weight = hcr.count + child_w st hcr.left + (getRec st' n).weight
      ∧ (nr.parent = none → st'.root = some hc)
      ∧ (∀ p pr, nr.parent = some p → st.heap p = some pr →
          st'.root = st.root
          ∧ st'.heap p = some (if hcr.key < pr.key then { pr with left := some hc }
              else { pr with right := some hc }))) := by
  have hhrL : hcr.right ≠ some n ∧ hcr.right ≠ some hc :=
    ⟨fun h => (hmvR n h).1 rfl, fun h => (hmvR hc h).2 rfl⟩
  have hhlR : hcr.left ≠ some n ∧ hcr.left ≠ some hc :=
    ⟨fun h => (hmvL n h).1 rfl, fun h => (hmvL hc h).2 rfl⟩
  constructor
  · intro st' hrot
    obtain ⟨hN, hHC, _, hP, _, hroot, _, _⟩ :=
      rotate_left_spec st n hc nr hcr hn hhc hne hnl hmvL hhrL
        (fun p hp => ⟨(hpar p hp).1, (hpar p hp).2.1, (hpar p hp).2.2.1⟩) st' hrot
    refine ⟨?_, ?_, ?_, ?_, ?_, ?_, ?_, ?_, ?_, ?_⟩
    · rw [getRec, hN]
      rfl
    · rw [getRec, hN]
      rfl
    · rw [getRec, hN]
      rfl
    · rw [getRec, hHC]
      rfl
    · rw [getRec, hHC]
      rfl
    · rw [getRec, hN]
      rfl
    · rw [getRec, hHC, getRec, hN]
      rfl
    · rw [getRec, hHC, getRec, hN]
      rfl
    · intro hp
      rw [hroot, hp]
    · intro p pr hp hpr
      constructor
      · rw [hroot, hp]
      · exact hP p pr hp hpr
  · intro st' hrot
    obtain ⟨hN, hHC, _, hP, _, hroot, _, _⟩ :=
      rotate_right_spec st n hc nr hcr hn hhc hne hnr hmvR hhlR
        (fun p hp => ⟨(hpar p hp).1, (hpar p hp).2.1, (hpar p hp).2.2.2⟩) st' hrot
    refine ⟨?_, ?_, ?_, ?_, ?_, ?_, ?_, ?_, ?_, ?_⟩
    · rw [getRec, hN]
      rfl
    · rw [getRec, hN]
      rfl
    · rw [getRec, hN]
      rfl
    · rw [getRec, hHC]
      rfl
    · rw [getRec, hHC]
      rfl
    · rw [getRec, hN]
      rfl
    · rw [getRec, hHC, getRec, hN]
      rfl
    · rw [getRec, hHC, getRec, hN]
      rfl
    · intro hp
      rw [hroot, hp]
    · intro p pr hp hpr
      constructor
      · rw [hroot, hp]
      · exact hP p pr hp hpr

/-- Witness for C3 at the concrete heap `rot_ex`. -/
theorem C3_witness :
    (_rotate_left rot_ex 1 (some 2)).map
        (fun s => ((getRec s 1).right, (getRec s 1).height, (getRec s 2).left,
          (getRec s 2).parent, (getRec s 1).parent, (getRec s 2).height,
          (getRec s 0).left, s.root))
      = some (some 3, 1, some 1, some 0, some 2, 2, some 2, some 0) := by
  obtain ⟨s, hs⟩ : ∃ s, _rotate_left rot_ex 1 (some 2) = some s := ⟨_, rfl⟩
  have h := (C3_rotate_steps rot_ex 1 2 rot_ex_n rot_ex_hc rfl rfl
    (by decide) (by decide) (by decide)
    (by intro m hm; cases hm; exact ⟨by decide, by decide⟩)
    (by intro m hm; cases hm; exact ⟨by decide, by decide⟩)
    (by intro p hp; cases hp; exact ⟨by decide, by decide,
      fun m hm => by cases hm; decide, fun m hm => by cases hm; decide⟩)).1 s hs
  obtain ⟨h1, h2, h3, h4, h5, h6, h7, h8, h9, h10⟩ := h
  obtain ⟨hr, hp⟩ := h10 0 _ rfl rfl
  rw [hs]
  simp only [Option.map_some', Option.some.injEq]
  refine Prod.ext ?_ (Prod.ext ?_ (Prod.ext ?_ (Prod.ext ?_ (Prod.ext ?_
    (Prod.ext ?_ (Prod.ext ?_ ?_))))))
  · exact h1
  · rw [h2]; rfl
  · exact h5
  · exact h4
  · exact h6
  · rw [h7, h2]; rfl
  · show (getRec s 0).left = some 2
    rw [getRec, hp]
    rfl
  · show s.root = some 0
    rw [hr]
    rfl

/-- C8 counterexample: a left rotation at node 1 with heavy child 2 in the
concrete heap `rot_ex` modifies the link fields of a fourth node — the
moved-across child 3, whose parent pointer changes from 2 to 1 — in
addition to the rotated node (1), the heavy child (2) and the original
parent (0).  So the rotation does not modify the link fields of exactly
three nodes. -/
theorem C8_cex :
    (_rotate_left rot_ex 1 (some 2)).map (fun s => (getRec s 3).parent)
      = some (some 1)
    ∧ (getRec rot_ex 3).parent = some 2
    ∧ ((3 : Nat) ≠ 1 ∧ (3 : Nat) ≠ 2 ∧ (3 : Nat) ≠ 0) :=
  ⟨rfl, rfl, by decide⟩

/-- C8 (amended): each single rotation modifies the link fields of at most
four nodes — the rotated node, the heavy child, the original parent, and
the parent pointer of the moved-across child when that child exists — and
modifies height/weight only at the rotated node and the heavy child: the
moved child keeps every field but its parent pointer, the original parent
keeps every field but the re-attached child slot, and every other heap
cell is completely untouched. -/
theorem C8_amended (st : St) (n hc : Nat) (nr hcr : NodeRec)
    (hn : st.heap n = some nr) (hhc : st.heap hc = some hcr)
    (hne : n ≠ hc)
    (hnl : nr.left ≠ some n) (hnr : nr.right ≠ some n)
    (hmvL : ∀ m, hcr.left = some m → m ≠ n ∧ m ≠ hc)
    (hmvR : ∀ m, hcr.right = some m → m ≠ n ∧ m ≠ hc)
    (hpar : ∀ p, nr.parent = some p → p ≠ n ∧ p ≠ hc
      ∧ (∀ m, hcr.left = some m → p ≠ m) ∧ (∀ m, hcr.right = some m → p ≠ m))
    (hparp : ∀ p, nr.parent = some p → st.heap p ≠ none) :
    (∀ st', _rotate_left st n (some hc) = some st' →
      (∀ j, j ≠ n → j ≠ hc → (∀ m, hcr.left = some m → j ≠ m) →
        (∀ p, nr.parent = some p → j ≠ p) → st'.heap j = st.heap j)
      ∧ (∀ m, hcr.left = some m →
          st'.heap m = (st.heap m).map fun mr => { mr with parent := some n })
      ∧ (∀ p pr, nr.parent = some p → st.heap p = some pr →
          (getRec st' p).height = pr.height ∧ (getRec st' p).weight = pr.weight
          ∧ (getRec st' p).key = pr.key ∧ (getRec st' p).count = pr.count
          ∧ (getRec st' p).parent = pr.parent)
      ∧ (∀ j, j ≠ n → j ≠ hc →
          (getRec st' j).height = (getRec st j).height
          ∧ (getRec st' j).weight = (getRec st j).weight))
    ∧ (∀ st', _rotate_right st n (some hc) = some st' →
      (∀ j, j ≠ n → j ≠ hc → (∀ m, hcr.right = some m → j ≠ m) →
        (∀ p, nr.parent = some p → j ≠ p) → st'.heap j = st.heap j)
      ∧ (∀ m, hcr.right = some m →
          st'.heap m = (st.heap m).map fun mr => { mr with parent := some n })
      ∧ (∀ p pr, nr.parent = some p → st.heap p = some pr →
          (getRec st' p).height = pr.height ∧ (getRec st' p).weight = pr.weight
          ∧ (getRec st' p).key = pr.key ∧ (getRec st' p).count = pr.count
          ∧ (getRec st' p).parent = pr.parent)
      ∧ (∀ j, j ≠ n → j ≠ hc →
          (getRec st' j).height = (getRec st j).height
          ∧ (getRec st' j).weight = (getRec st j).weight)) := by
  have hhrL : hcr.right ≠ some n ∧ hcr.right ≠ some hc :=
    ⟨fun h => (hmvR n h).1 rfl, fun h => (hmvR hc h).2 rfl⟩
  have hhlR : hcr.left ≠ some n ∧ hcr.left ≠ some hc :=
    ⟨fun h => (hmvL n h).1 rfl, fun h => (hmvL hc h).2 rfl⟩
  constructor
  · intro st' hrot
    obtain ⟨hN, hHC, hM, hP, hF, _, _, _⟩ :=
      rotate_left_spec st n hc nr hcr hn hhc hne hnl hmvL hhrL
        (fun p hp => ⟨(hpar p hp).1, (hpar p hp).2.1, (hpar p hp).2.2.1⟩) st' hrot
    refine ⟨hF, hM, ?_, ?_⟩
    · intro p pr hp hpr
      rw [getRec, hP p pr hp hpr]
      by_cases hk : hcr.key < pr.key
      · rw [if_pos hk]
        exact ⟨rfl, rfl, rfl, rfl, rfl⟩
      · rw [if_neg hk]
        exact ⟨rfl, rfl, rfl, rfl, rfl⟩
    · intro j hjn hjhc
      by_cases hjm : ∃ m, hcr.left = some m ∧ j = m
      · obtain ⟨m, hm, rfl⟩ := hjm
        rw [getRec, hM _ hm]
        cases hsm : st.heap _ <;> simp [getRec, hsm]
      · have hjm' : ∀ m, hcr.left = some m → j ≠ m := by
          intro m hm he
          exact hjm ⟨m, hm, he⟩
        by_cases hjp : ∃ p, nr.parent = some p ∧ j = p
        · obtain ⟨p, hp, rfl⟩ := hjp
          cases hqr : st.heap _ with
          | none => exact absurd hqr (hparp _ hp)
          | some pr =>
            have := hP _ pr hp hqr
            rw [getRec, this, getRec, hqr]
            by_cases hk : hcr.key < pr.key
            · rw [if_pos hk]
              exact ⟨rfl, rfl⟩
            · rw [if_neg hk]
              exact ⟨rfl, rfl⟩
        · have hjp' : ∀ p, nr.parent = some p → j ≠ p := by
            intro p hp he
            exact hjp ⟨p, hp, he⟩
          rw [getRec, hF j hjn hjhc hjm' hjp', getRec]
          exact ⟨rfl, rfl⟩
  · intro st' hrot
    obtain ⟨hN, hHC, hM, hP, hF, _, _, _⟩ :=
      rotate_right_spec st n hc nr hcr hn hhc hne hnr hmvR hhlR
        (fun p hp => ⟨(hpar p hp).1, (hpar p hp).2.1, (hpar p hp).2.2.2⟩) st' hrot
    refine ⟨hF, hM, ?_, ?_⟩
    · intro p pr hp hpr
      rw [getRec, hP p pr hp hpr]
      by_cases hk : hcr.key < pr.key
      · rw [if_pos hk]
        exact ⟨rfl, rfl, rfl, rfl, rfl⟩
      · rw [if_neg hk]
        exact ⟨rfl, rfl, rfl, rfl, rfl⟩
    · intro j hjn hjhc
      by_cases hjm : ∃ m, hcr.right = some m ∧ j = m
      · obtain ⟨m, hm, rfl⟩ := hjm
        rw [getRec, hM _ hm]
        cases hsm : st.heap _ <;> simp [getRec, hsm]
      · have hjm' : ∀ m, hcr.right = some m → j ≠ m := by
          intro m hm he
          exact hjm ⟨m, hm, he⟩
        by_cases hjp : ∃ p, nr.parent = some p ∧ j = p
        · obtain ⟨p, hp, rfl⟩ := hjp
          cases hqr : st.heap _ with
          | none => exact absurd hqr (hparp _ hp)
          | some pr =>
            have := hP _ pr hp hqr
            rw [getRec, this, getRec, hqr]
            by_cases hk : hcr.key < pr.key
            · rw [if_pos hk]
              exact ⟨rfl, rfl⟩
            · rw [if_neg hk]
              exact ⟨rfl, rfl⟩
        · have hjp' : ∀ p, nr.parent = some p → j ≠ p := by
            intro p hp he
            exact hjp ⟨p, hp, he⟩
          rw [getRec, hF j hjn hjhc hjm' hjp', getRec]
          exact ⟨rfl, rfl⟩

/-- Witness for C8 (amended) at the concrete heap `rot_ex`: the untouched
sibling 4 keeps its entire record and the original parent 0 keeps its
height and weight. -/
theorem C8_witness :
    (_rotate_left rot_ex 1 (some 2)).map
        (fun s => (s.heap 4, (getRec s 0).height, (getRec s 0).weight))
      = some (rot_ex.heap 4, 3, 5) := by
  obtain ⟨s, hs⟩ : ∃ s, _rotate_left rot_ex 1 (some 2) = some s := ⟨_, rfl⟩
  have h := (C8_amended rot_ex 1 2 rot_ex_n rot_ex_hc rfl rfl
    (by decide) (by decide) (by decide)
    (by intro m hm; cases hm; exact ⟨by decide, by decide⟩)
    (by intro m hm; cases hm; exact ⟨by decide, by decide⟩)
    (by intro p hp; cases hp; exact ⟨by decide, by decide,
      fun m hm => by cases hm; decide, fun m hm => by cases hm; decide⟩)
    (by intro p hp; cases hp; exact (by simp [rot_ex, hwrite]))).1 s hs
  have h4 : s.heap 4 = rot_ex.heap 4 :=
    h.1 4 (by decide) (by decide)
      (fun m hm => by cases hm; decide) (fun p hp => by cases hp; decide)
  have h0 := h.2.2.1 0 _ rfl rfl
  rw [hs]
  simp only [Option.map_some', Option.some.injEq]
  refine Prod.ext h4 (Prod.ext ?_ ?_)
  · show (getRec s 0).height = 3
    rw [h0.1]
  · show (getRec s 0).weight = 5
    rw [h0.2.1]

theorem getRec_inspect (st : St) (m i : Nat) : getRec (inspect st m) i = getRec st i := rfl

theorem is_left_heavy_inspect (st : St) (m n : Nat) (d : Int) :
    is_left_heavy (inspect st m) n d = is_left_heavy st n d := rfl

theorem is_right_heavy_inspect (st : St) (m n : Nat) (d : Int) :
    is_right_heavy (inspect st m) n d = is_right_heavy st n d := rfl

theorem balance_unfold (fuel : Nat) (st : St) (n : Nat) :
    _balance (fuel + 1) st n
      = (_balance_step st n).bind fun st1 =>
          match (getRec st n).parent with
          | some p => _balance fuel st1 p
          | none => some st1 := by
  rw [_balance]
  cases _balance_step st n <;> rfl

/-- C2: the `_balance` dispatch.  If the node is left-heavy and its left
child is strictly right-heavy (`diff = 0`), a left rotation is first
performed at `node.left` with `node.left.right` pulled up, then a right
rotation at `node` with the re-read `node.left` pulled up; if the left
child is not strictly right-heavy, only the right rotation at `node` (with
`node.left` pulled up) is performed; the right-heavy case is the exact
mirror; otherwise no rotation occurs; and in every case `_balance` then
recurses on the node's original parent, captured before any rotation moved
pointers.  (`inspect` is the ghost bookkeeping of the height reads and
does not change the heap.) -/
theorem C2_balance_dispatch (st : St) (n : Nat) (nr : NodeRec) (fuel : Nat)
    (hn : st.heap n = some nr) :
    (∀ l, is_left_heavy st n 1 = true → nr.left = some l →
      is_right_heavy st l 0 = true →
      _balance (fuel + 1) st n
        = ((_rotate_left (inspect (inspect st n) l) l (getRec st l).right).bind
            fun st2 => _rotate_right st2 n (getRec st2 n).left).bind
            fun st1 => match nr.parent with
              | some p => _balance fuel st1 p
              | none => some st1)
    ∧ (∀ l, is_left_heavy st n 1 = true → nr.left = some l →
      is_right_heavy st l 0 = false →
      _balance (fuel + 1) st n
        = (_rotate_right (inspect (inspect st n) l) n (some l)).bind
            fun st1 => match nr.parent with
              | some p => _balance fuel st1 p
              | none => some st1)
    ∧ (∀ r, is_left_heavy st n 1 = false → is_right_heavy st n 1 = true →
      nr.right = some r → is_left_heavy st r 0 = true →
      _balance (fuel + 1) st n
        = ((_rotate_right (inspect (inspect st n) r) r (getRec st r).left).bind
            fun st2 => _rotate_left st2 n (getRec st2 n).right).bind
            fun st1 => match nr.parent with
              | some p => _balance fuel st1 p
              | none => some st1)
    ∧ (∀ r, is_left_heavy st n 1 = false → is_right_heavy st n 1 = true →
      nr.right = some r → is_left_heavy st r 0 = false →
      _balance (fuel + 1) st n
        = (_rotate_left (inspect (inspect st n) r) n (some r)).bind
            fun st1 => match nr.parent with
              | some p => _balance fuel st1 p
              | none => some st1)
    ∧ (is_left_heavy st n 1 = false → is_right_heavy st n 1 = false →
      _balance (fuel + 1) st n
        = match nr.parent with
          | some p => _balance fuel (inspect st n) p
          | none => some (inspect st n)) := by
  have hG : getRec st n = nr := by simp [getRec, hn]
  refine ⟨?_, ?_, ?_, ?_, ?_⟩
  · intro l hLH hl hRH
    rw [balance_unfold, hG]
    have hstep : _balance_step st n
        = (_rotate_left (inspect (inspect st n) l) l (getRec st l).right).bind
            fun st2 => _rotate_right st2 n (getRec st2 n).left := by
      rw [_balance_step]
      simp only [is_left_heavy_inspect, is_right_heavy_inspect, getRec_inspect,
        hG, hl, hLH, hRH, if_true]
    rw [hstep]
  · intro l hLH hl hRH
    rw [balance_unfold, hG]
    have hstep : _balance_step st n
        = _rotate_right (inspect (inspect st n) l) n (some l) := by
      rw [_balance_step]
      simp only [is_left_heavy_inspect, is_right_heavy_inspect, getRec_inspect,
        hG, hl, hLH, hRH, if_true, Bool.false_eq_true, if_false, Option.some_bind]
    rw [hstep]
  · intro r hLH hRH hr hLH2
    rw [balance_unfold, hG]
    have hstep : _balance_step st n
        = (_rotate_right (inspect (inspect st n) r) r (getRec st r).left).bind
            fun st2 => _rotate_left st2 n (getRec st2 n).right := by
      rw [_balance_step]
      simp only [is_left_heavy_inspect, is_right_heavy_inspect, getRec_inspect,
        hG, hr, hLH, hRH, hLH2, if_true, Bool.false_eq_true, if_false]
    rw [hstep]
  · intro r hLH hRH hr hLH2
    rw [balance_unfold, hG]
    have hstep : _balance_step st n
        = _rotate_left (inspect (inspect st n) r) n (some r) := by
      rw [_balance_step]
      simp only [is_left_heavy_inspect, is_right_heavy_inspect, getRec_inspect,
        hG, hr, hLH, hRH, hLH2, if_true, Bool.false_eq_true, if_false,
        Option.some_bind]
    rw [hstep]
  · intro hLH hRH
    rw [balance_unfold, hG]
    have hstep : _balance_step st n = some (inspect st n) := by
      rw [_balance_step]
      simp only [is_left_heavy_inspect, is_right_heavy_inspect, getRec_inspect,
        hG, hLH, hRH, Bool.false_eq_true, if_false]
    rw [hstep, Option.some_bind]

/-- Witness for C2 at the concrete heap `rot_ex`: node 1 is right-heavy
with a non-left-heavy right child, so the dispatch is a single left
rotation at node 1 followed by re-balancing at the original parent 0. -/
theorem C2_witness :
    _balance 3 rot_ex 1
      = (_rotate_left (inspect (inspect rot_ex 1) 2) 1 (some 2)).bind
          fun st1 => _balance 2 st1 0 :=
  (C2_balance_dispatch rot_ex 1 rot_ex_n 2 rfl).2.2.2.1 2 (by decide) (by decide)
    rfl (by decide)

theorem left_modifyRec (st : St) (i : Nat) (f : NodeRec → NodeRec) (z : Nat)
    (hf : ∀ r, (f r).left = r.left) :
    (getRec (modifyRec st i f) z).left = (getRec st z).left := by
  by_cases hz : z = i
  · subst hz
    cases hsi : st.heap z with
    | none => rw [modifyRec_of_none st z f hsi]
    | some r =>
      rw [getRec, heap_modifyRec_same st z f r hsi]
      simp [getRec, hsi, hf r]
  · rw [getRec_modifyRec_other st i f z hz]

theorem right_modifyRec (st : St) (i : Nat) (f : NodeRec → NodeRec) (z : Nat)
    (hf : ∀ r, (f r).right = r.right) :
    (getRec (modifyRec st i f) z).right = (getRec st z).right := by
  by_cases hz : z = i
  · subst hz
    cases hsi : st.heap z with
    | none => rw [modifyRec_of_none st z f hsi]
    | some r =>
      rw [getRec, heap_modifyRec_same st z f r hsi]
      simp [getRec, hsi, hf r]
  · rw [getRec_modifyRec_other st i f z hz]

theorem left_values_set_right (st : St) (a : Nat) (c : Option Nat) (z : Nat) :
    (getRec (set_right st a c) z).left = (getRec st z).left := by
  unfold set_right
  dsimp only
  cases c with
  | none => exact left_modifyRec st a _ z (fun r => rfl)
  | some cid =>
    dsimp only
    have h2 := left_modifyRec (modifyRec st a fun r => { r with right := some cid })
      cid (fun r => { r with parent := some a }) z (fun r => rfl)
    rw [h2]
    exact left_modifyRec st a _ z (fun r => rfl)

theorem right_values_set_left (st : St) (a : Nat) (c : Option Nat) (z : Nat) :
    (getRec (set_left st a c) z).right = (getRec st z).right := by
  unfold set_left
  dsimp only
  cases c with
  | none => exact right_modifyRec st a _ z (fun r => rfl)
  | some cid =>
    dsimp only
    have h2 := right_modifyRec (modifyRec st a fun r => { r with left := some cid })
      cid (fun r => { r with parent := some a }) z (fun r => rfl)
    rw [h2]
    exact right_modifyRec st a _ z (fun r => rfl)

theorem left_values_update (st : St) (a z : Nat) :
    (getRec (update st a) z).left = (getRec st z).left := by
  unfold update
  exact left_modifyRec st a _ z (fun r => rfl)

theorem right_values_update (st : St) (a z : Nat) :
    (getRec (update st a) z).right = (getRec st z).right := by
  unfold update
  exact right_modifyRec st a _ z (fun r => rfl)

theorem left_values_write_parent (st : St) (a : Nat) (p : Option Nat) (z : Nat) :
    (getRec (write_parent st a p) z).left = (getRec st z).left := by
  unfold write_parent
  exact left_modifyRec st a _ z (fun r => rfl)

theorem right_values_write_parent (st : St) (a : Nat) (p : Option Nat) (z : Nat) :
    (getRec (write_parent st a p) z).right = (getRec st z).right := by
  unfold write_parent
  exact right_modifyRec st a _ z (fun r => rfl)

theorem left_isSome_set_left (st : St) (a v z : Nat)
    (hz : (getRec st z).left.isSome = true) :
    (getRec (set_left st a (some v)) z).left.isSome = true := by
  unfold set_left
  dsimp only
  have h2 := left_modifyRec (modifyRec st a fun r => { r with left := some v })
    v (fun r => { r with parent := some a }) z (fun r => rfl)
  rw [h2]
  by_cases hza : z = a
  · subst hza
    cases hsa : st.heap z with
    | none =>
      rw [getRec, hsa] at hz
      exact absurd hz (by decide)
    | some r =>
      rw [getRec, heap_modifyRec_same st z _ r hsa]
      rfl
  · rw [getRec_modifyRec_other st a _ z hza]
    exact hz

theorem right_isSome_set_right (st : St) (a v z : Nat)
    (hz : (getRec st z).right.isSome = true) :
    (getRec (set_right st a (some v)) z).right.isSome = true := by
  unfold set_right
  dsimp only
  have h2 := right_modifyRec (modifyRec st a fun r => { r with right := some v })
    v (fun r => { r with parent := some a }) z (fun r => rfl)
  rw [h2]
  by_cases hza : z = a
  · subst hza
    cases hsa : st.heap z with
    | none =>
      rw [getRec, hsa] at hz
      exact absurd hz (by decide)
    | some r =>
      rw [getRec, heap_modifyRec_same st z _ r hsa]
      rfl
  · rw [getRec_modifyRec_other st a _ z hza]
    exact hz

theorem left_isSome_add_child (st : St) (p x z : Nat)
    (hz : (getRec st z).left.isSome = true) :
    (getRec (add_child st p x) z).left.isSome = true := by
  unfold add_child
  split
  · exact left_isSome_set_left st p x z hz
  · rw [left_values_set_right st p (some x) z]
    exact hz

theorem right_isSome_add_child (st : St) (p x z : Nat)
    (hz : (getRec st z).right.isSome = true) :
    (getRec (add_child st p x) z).right.isSome = true := by
  unfold add_child
  split
  · rw [right_values_set_left st p (some x) z]
    exact hz
  · exact right_isSome_set_right st p x z hz

/-- A left rotation never clears a left-child slot: every node whose left
child was present still has a present left child afterwards. -/
theorem rotate_left_keeps_left (st : St) (x y : Nat) (st' : St)
    (h : _rotate_left st x (some y) = some st') (z : Nat)
    (hz : (getRec st z).left.isSome = true) :
    (getRec st' z).left.isSome = true := by
  rw [_rotate_left] at h
  have hcore : (getRec (update (set_left (write_parent
      (update (set_right (log_rot st true (getRec st x).key) x
        (getRec st y).left) x) y (getRec st x).parent) y (some x)) y) z).left.isSome
      = true := by
    rw [left_values_update]
    apply left_isSome_set_left
    rw [left_values_write_parent, left_values_update, left_values_set_right]
    exact hz
  split at h
  · cases h
    exact left_isSome_add_child _ _ y z hcore
  · cases h
    exact hcore

/-- A right rotation never clears a right-child slot. -/
theorem rotate_right_keeps_right (st : St) (x y : Nat) (st' : St)
    (h : _rotate_right st x (some y) = some st') (z : Nat)
    (hz : (getRec st z).right.isSome = true) :
    (getRec st' z).right.isSome = true := by
  rw [_rotate_right] at h
  have hcore : (getRec (update (set_right (write_parent
      (update (set_left (log_rot st false (getRec st x).key) x
        (getRec st y).right) x) y (getRec st x).parent) y (some x)) y) z).right.isSome
      = true := by
    rw [right_values_update]
    apply right_isSome_set_right
    rw [right_values_write_parent, right_values_update, right_values_set_left]
    exact hz
  split at h
  · cases h
    exact right_isSome_add_child _ _ y z hcore
  · cases h
    exact hcore

theorem rotate_left_total (st : St) (x y : Nat) :
    ∃ s, _rotate_left st x (some y) = some s := by
  rw [_rotate_left]
  cases (getRec (log_rot st true (getRec st x).key) x).parent <;> exact ⟨_, rfl⟩

theorem rotate_right_total (st : St) (x y : Nat) :
    ∃ s, _rotate_right st x (some y) = some s := by
  rw [_rotate_right]
  cases (getRec (log_rot st false (getRec st x).key) x).parent <;> exact ⟨_, rfl⟩

/-- Under exact stored heights, every stored height in the subtree is
non-negative. -/
theorem heights_ok_nonneg :
    ∀ (fuel : Nat) (st : St) (o : Option Nat) (x : Nat),
      heights_ok fuel st o = true → o = some x → 0 ≤ (getRec st x).height := by
  intro fuel
  induction fuel with
  | zero => intro st o x hok _; exact absurd hok (by simp [heights_ok])
  | succ fuel ih =>
    intro st o x hok ho
    subst ho
    rw [heights_ok, Bool.and_eq_true, Bool.and_eq_true] at hok
    obtain ⟨⟨hlc, hokl⟩, hokr⟩ := hok
    rw [locally_current, decide_eq_true_eq] at hlc
    have hl : -1 ≤ left_height st x := by
      rw [left_height]
      cases hxl : (getRec st x).left with
      | none => show (-1 : Int) ≤ -1; omega
      | some l =>
        have hge := ih st _ l hokl (by rw [hxl])
        show (-1 : Int) ≤ (getRec st l).height
        omega
    have hr : -1 ≤ right_height st x := by
      rw [right_height]
      cases hxr : (getRec st x).right with
      | none => show (-1 : Int) ≤ -1; omega
      | some r =>
        have hge := ih st _ r hokr (by rw [hxr])
        show (-1 : Int) ≤ (getRec st r).height
        omega
    rw [hlc]
    have := le_max_left (left_height st x) (right_height st x)
    have := le_max_right (left_height st x) (right_height st x)
    omega

/-- C9: under the precondition that stored heights are exact on the
node's subtree, a true `is_left_heavy()` implies the left child is
present and a true `is_right_heavy()` implies the right child is present;
the strict `diff = 0` tests on a present child likewise imply that child's
inner child is present; hence every child dereference in the `_balance`
dispatch (`node.left.is_right_heavy(diff=0)`, the rotation arguments, and
the mirror accesses) touches a present node and the dispatch has no
reachable failure (`_balance_step` never returns `none`). -/
theorem C9_no_absent_child_deref (st : St) (n : Nat) (fuel : Nat)
    (hok : heights_ok (fuel + 3) st (some n) = true) :
    (is_left_heavy st n 1 = true → (getRec st n).left.isSome = true)
    ∧ (is_right_heavy st n 1 = true → (getRec st n).right.isSome = true)
    ∧ (∀ l, (getRec st n).left = some l → is_right_heavy st l 0 = true →
        (getRec st l).right.isSome = true)
    ∧ (∀ r, (getRec st n).right = some r → is_left_heavy st r 0 = true →
        (getRec st r).left.isSome = true)
    ∧ _balance_step st n ≠ none := by
  rw [heights_ok, Bool.and_eq_true, Bool.and_eq_true] at hok
  obtain ⟨⟨hlc, hokl⟩, hokr⟩ := hok
  have hA : is_left_heavy st n 1 = true → (getRec st n).left.isSome = true := by
    intro hLH
    cases hln : (getRec st n).left with
    | some l => rfl
    | none =>
      exfalso
      simp only [is_left_heavy, decide_eq_true_eq] at hLH
      have hlh : left_height st n = -1 := by rw [left_height, hln]
      cases hrn : (getRec st n).right with
      | none =>
        have hrh : right_height st n = -1 := by rw [right_height, hrn]
        omega
      | some r =>
        have hokr' : heights_ok (fuel + 2) st (some r) := by rw [← hrn]; exact hokr
        have hge := heights_ok_nonneg (fuel + 2) st (some r) r hokr' rfl
        have hrh : right_height st n = (getRec st r).height := by rw [right_height, hrn]
        omega
  have hB : is_right_heavy st n 1 = true → (getRec st n).right.isSome = true := by
    intro hRH
    cases hrn : (getRec st n).right with
    | some r => rfl
    | none =>
      exfalso
      simp only [is_right_heavy, decide_eq_true_eq] at hRH
      have hrh : right_height st n = -1 := by rw [right_height, hrn]
      cases hln : (getRec st n).left with
      | none =>
        have hlh : left_height st n = -1 := by rw [left_height, hln]
        omega
      | some l =>
        have hokl' : heights_ok (fuel + 2) st (some l) := by rw [← hln]; exact hokl
        have hge := heights_ok_nonneg (fuel + 2) st (some l) l hokl' rfl
        have hlh : left_height st n = (getRec st l).height := by rw [left_height, hln]
        omega
  have hC : ∀ l, (getRec st n).left = some l → is_right_heavy st l 0 = true →
      (getRec st l).right.isSome = true := by
    intro l hl hRH
    have hokl' : heights_ok (fuel + 2) st (some l) := by rw [← hl]; exact hokl
    rw [heights_ok, Bool.and_eq_true, Bool.and_eq_true] at hokl'
    obtain ⟨⟨_, hokll⟩, _⟩ := hokl'
    cases hlr : (getRec st l).right with
    | some w => rfl
    | none =>
      exfalso
      simp only [is_right_heavy, decide_eq_true_eq] at hRH
      have hrh : right_height st l = -1 := by rw [right_height, hlr]
      cases hll : (getRec st l).left with
      | none =>
        have hlh : left_height st l = -1 := by rw [left_height, hll]
        omega
      | some x =>
        have hokx : heights_ok (fuel + 1) st (some x) := by rw [← hll]; exact hokll
        have hge := heights_ok_nonneg (fuel + 1) st (some x) x hokx rfl
        have hlh : left_height st l = (getRec st x).height := by rw [left_height, hll]
        omega
  have hD : ∀ r, (getRec st n).right = some r → is_left_heavy st r 0 = true →
      (getRec st r).left.isSome = true := by
    intro r hr hLH
    have hokr' : heights_ok (fuel + 2) st (some r) := by rw [← hr]; exact hokr
    rw [heights_ok, Bool.and_eq_true, Bool.and_eq_true] at hokr'
    obtain ⟨⟨_, _⟩, hokrr⟩ := hokr'
    cases hrl : (getRec st r).left with
    | some w => rfl
    | none =>
      exfalso
      simp only [is_left_heavy, decide_eq_true_eq] at hLH
      have hlh : left_height st r = -1 := by rw [left_height, hrl]
      cases hrr : (getRec st r).right with
      | none =>
        have hrh : right_height st r = -1 := by rw [right_height, hrr]
        omega
      | some x =>
        have hokx : heights_ok (fuel + 1) st (some x) := by rw [← hrr]; exact hokrr
        have hge := heights_ok_nonneg (fuel + 1) st (some x) x hokx rfl
        have hrh : right_height st r = (getRec st x).height := by rw [right_height, hrr]
        omega
  refine ⟨hA, hB, hC, hD, ?_⟩
  rw [_balance_step]
  simp only [is_left_heavy_inspect, is_right_heavy_inspect, getRec_inspect]
  by_cases hLH : is_left_heavy st n 1 = true
  · obtain ⟨l, hl⟩ := Option.isSome_iff_exists.mp (hA hLH)
    simp only [hLH, hl, if_true]
    by_cases hRH2 : is_right_heavy st l 0 = true
    · simp only [hRH2, if_true]
      obtain ⟨lr, hlr⟩ := Option.isSome_iff_exists.mp (hC l hl hRH2)
      rw [hlr]
      obtain ⟨s2, hs2⟩ := rotate_left_total (inspect (inspect st n) l) l lr
      rw [hs2, Option.some_bind]
      have hkeep := rotate_left_keeps_left (inspect (inspect st n) l) l lr s2 hs2 n
        (by show (getRec st n).left.isSome = true; rw [hl]; rfl)
      obtain ⟨w, hw⟩ := Option.isSome_iff_exists.mp hkeep
      rw [hw]
      obtain ⟨s3, hs3⟩ := rotate_right_total s2 n w
      rw [hs3]
      simp
    · rw [if_neg hRH2, Option.some_bind]
      have : (getRec (inspect (inspect st n) l) n).left = some l := hl
      rw [this]
      obtain ⟨s3, hs3⟩ := rotate_right_total (inspect (inspect st n) l) n l
      rw [hs3]
      simp
  · rw [if_neg hLH]
    by_cases hRH : is_right_heavy st n 1 = true
    · obtain ⟨r, hr⟩ := Option.isSome_iff_exists.mp (hB hRH)
      simp only [hRH, hr, if_true]
      by_cases hLH2 : is_left_heavy st r 0 = true
      · simp only [hLH2, if_true]
        obtain ⟨rl, hrl⟩ := Option.isSome_iff_exists.mp (hD r hr hLH2)
        rw [hrl]
        obtain ⟨s2, hs2⟩ := rotate_right_total (inspect (inspect st n) r) r rl
        rw [hs2, Option.some_bind]
        have hkeep := rotate_right_keeps_right (inspect (inspect st n) r) r rl s2 hs2 n
          (by show (getRec st n).right.isSome = true; rw [hr]; rfl)
        obtain ⟨w, hw⟩ := Option.isSome_iff_exists.mp hkeep
        rw [hw]
        obtain ⟨s3, hs3⟩ := rotate_left_total s2 n w
        rw [hs3]
        simp
      · rw [if_neg hLH2, Option.some_bind]
        have : (getRec (inspect (inspect st n) r) n).right = some r := hr
        rw [this]
        obtain ⟨s3, hs3⟩ := rotate_left_total (inspect (inspect st n) r) n r
        rw [hs3]
        simp
    · rw [if_neg hRH]
      simp

/-- Witness for C9 at the concrete heap `c9_ex`. -/
theorem C9_witness :
    (getRec c9_ex 0).left.isSome = true ∧ _balance_step c9_ex 0 ≠ none := by
  have h := C9_no_absent_child_deref c9_ex 0 1 (by decide)
  exact ⟨h.1 (by decide), h.2.2.2.2⟩
